import Mathlib

/-
  Verification development for the nrbf decoder (src/lib.rs, src/primitives.rs,
  src/value.rs).  The Rust code is embedded shallowly: streams are byte lists,
  machine integers are Nat/Int with explicit `% 2 ^ w` where wrap-around matters,
  and every Rust panic (failed assert, unknown tag, short read, UTF-8 error,
  unimplemented case) is the `fatal` outcome.  All recursion is structural
  (fuel-indexed where the source loops), so every definition evaluates inside
  the kernel.
-/

set_option maxHeartbeats 1000000

namespace Nrbf

abbrev CoreBool := Bool
abbrev CoreString := String

/-- Outcome of running a piece of the decoder: success, a fatal abort (any
Rust panic: failed assertion, unknown tag, short read, invalid UTF-8,
unimplemented case), or exhaustion of the fuel that makes the embedding's
recursion structural (an artifact of the embedding, not of the program). -/
inductive Dres (α : Type) where
  | ok (a : α)
  | fatal
  | outOfFuel

def Dres.bind {α β : Type} : Dres α → (α → Dres β) → Dres β
  | .ok a, f => f a
  | .fatal, _ => .fatal
  | .outOfFuel, _ => .outOfFuel

def Dres.map {α β : Type} (f : α → β) : Dres α → Dres β
  | .ok a => .ok (f a)
  | .fatal => .fatal
  | .outOfFuel => .outOfFuel

/-- `read_u8` (src/primitives.rs): one byte from the stream, panicking on a
short read.  The `% 256` keeps an arbitrary `Nat` entry inside the u8 range. -/
def readU8 : List Nat → Dres (Nat × List Nat)
  | [] => .fatal
  | b :: rest => .ok (b % 256, rest)

/-- Read exactly `n` bytes (the fixed-width readers of src/primitives.rs all
do `read_or_panic` on an `n`-byte buffer). -/
def readBytes : Nat → List Nat → Dres (List Nat × List Nat)
  | 0, s => .ok ([], s)
  | n + 1, s =>
    (readU8 s).bind fun (b, s1) =>
    (readBytes n s1).map fun (bs, s2) => (b :: bs, s2)

/-- Little-endian value of a byte list (`from_le_bytes`). -/
def leVal (bs : List Nat) : Nat := bs.foldr (fun b acc => b + 256 * acc) 0

/-- Two's-complement reading of a `w`-bit unsigned value as a signed integer. -/
def toSigned (w : Nat) (u : Nat) : Int :=
  if u < 2 ^ (w - 1) then (u : Int) else (u : Int) - 2 ^ w

def readU16 (s : List Nat) : Dres (Nat × List Nat) :=
  (readBytes 2 s).map fun (bs, s1) => (leVal bs, s1)

def readU32 (s : List Nat) : Dres (Nat × List Nat) :=
  (readBytes 4 s).map fun (bs, s1) => (leVal bs, s1)

def readU64 (s : List Nat) : Dres (Nat × List Nat) :=
  (readBytes 8 s).map fun (bs, s1) => (leVal bs, s1)

def readI8 (s : List Nat) : Dres (Int × List Nat) :=
  (readBytes 1 s).map fun (bs, s1) => (toSigned 8 (leVal bs), s1)

def readI16 (s : List Nat) : Dres (Int × List Nat) :=
  (readBytes 2 s).map fun (bs, s1) => (toSigned 16 (leVal bs), s1)

def readI32 (s : List Nat) : Dres (Int × List Nat) :=
  (readBytes 4 s).map fun (bs, s1) => (toSigned 32 (leVal bs), s1)

def readI64 (s : List Nat) : Dres (Int × List Nat) :=
  (readBytes 8 s).map fun (bs, s1) => (toSigned 64 (leVal bs), s1)

/-- `read_f32`: the 4 raw little-endian bytes; the bit pattern is kept as a
`Nat` (no floating-point arithmetic is performed anywhere in the decoder). -/
def readF32 (s : List Nat) : Dres (Nat × List Nat) :=
  (readBytes 4 s).map fun (bs, s1) => (leVal bs, s1)

def readF64 (s : List Nat) : Dres (Nat × List Nat) :=
  (readBytes 8 s).map fun (bs, s1) => (leVal bs, s1)

/-- Loop body of `read_variable_length` (src/primitives.rs): byte `i`
contributes its low 7 bits shifted by `num_bytes * 7`; the high bit of each
byte is the continuation flag.  The accumulator is a usize, hence the
`% 2 ^ 64` on the (release-mode, wrapping) addition, and the shift amount is
masked to `7 * i % 64` exactly as Rust's release-mode `<<` masks an amount
that reaches the bit width (debug builds panic there; the embedding follows
the release semantics, as it does for the wrapping `+=`). -/
def readVarAux : List Nat → Nat → Nat → Dres (Nat × List Nat)
  | [], _, _ => .fatal
  | b :: rest, i, acc =>
    let byte := b % 256
    let acc1 := (acc + byte % 128 * 2 ^ (7 * i % 64)) % 2 ^ 64
    if byte < 128 then .ok (acc1, rest)
    else readVarAux rest (i + 1) acc1

/-- `read_variable_length` (src/primitives.rs). -/
def read_variable_length (s : List Nat) : Dres (Nat × List Nat) :=
  readVarAux s 0 0

/-- Continuation-byte test used by the UTF-8 validator: `0x80 ≤ b ≤ 0xBF`. -/
def utf8Cont (b : Nat) : Bool := 128 ≤ b && b ≤ 191

/-- UTF-8 validation and decoding exactly as `String::from_utf8` performs it
(rejecting overlong forms, surrogates and code points above U+10FFFF). -/
def utf8Decode : List Nat → Option (List Char)
  | [] => some []
  | b :: rest =>
    if b < 128 then
      (utf8Decode rest).map fun cs => Char.ofNat b :: cs
    else if b < 194 then none
    else if b ≤ 223 then
      match rest with
      | c1 :: r =>
        if utf8Cont c1 then
          (utf8Decode r).map fun cs => Char.ofNat ((b - 192) * 64 + (c1 - 128)) :: cs
        else none
      | [] => none
    else if b ≤ 239 then
      match rest with
      | c1 :: c2 :: r =>
        let okC1 : Bool :=
          if b = 224 then 160 ≤ c1 && c1 ≤ 191
          else if b = 237 then 128 ≤ c1 && c1 ≤ 159
          else utf8Cont c1
        if okC1 && utf8Cont c2 then
          (utf8Decode r).map fun cs =>
            Char.ofNat ((b - 224) * 4096 + (c1 - 128) * 64 + (c2 - 128)) :: cs
        else none
      | _ => none
    else if b ≤ 244 then
      match rest with
      | c1 :: c2 :: c3 :: r =>
        let okC1 : Bool :=
          if b = 240 then 144 ≤ c1 && c1 ≤ 191
          else if b = 244 then 128 ≤ c1 && c1 ≤ 143
          else utf8Cont c1
        if okC1 && utf8Cont c2 && utf8Cont c3 then
          (utf8Decode r).map fun cs =>
            Char.ofNat ((b - 240) * 262144 + (c1 - 128) * 4096 + (c2 - 128) * 64 + (c3 - 128)) :: cs
        else none
      | _ => none
    else none

/-- `read_lps` (src/primitives.rs): variable-length byte count, then that many
bytes decoded as UTF-8, panicking on invalid UTF-8. -/
def read_lps (s : List Nat) : Dres (CoreString × List Nat) :=
  (read_variable_length s).bind fun (len, s1) =>
  (readBytes len s1).bind fun (data, s2) =>
  match utf8Decode data with
  | some cs => .ok (String.mk cs, s2)
  | none => .fatal

end Nrbf

namespace Nrbf

mutual
/-- The `Value` enum (src/value.rs).  Floats are carried as raw bit patterns;
`Array` keeps (lengths, lower bounds, flat elements); `Object` keeps the class
name and the member map.  The member map models Rust's `HashMap<String, Value>`
canonically: an association list kept sorted by key, so insertion order is
forgotten, exactly as a hash map forgets it. -/
inductive Value where
  | Null : Value
  | Byte : Nat → Value
  | Bool : CoreBool → Value
  | U8 : Nat → Value
  | U32 : Nat → Value
  | U64 : Nat → Value
  | I8 : Int → Value
  | I32 : Int → Value
  | I64 : Int → Value
  | F32 : Nat → Value
  | F64 : Nat → Value
  | String : CoreString → Value
  | Array : List Nat → List Nat → ValueList → Value
  | Object : CoreString → MemberList → Value
  | Reference : Int → Value
  | Bottom : Value

/-- Flat element sequence of an `Array` (`Vec<Value>`). -/
inductive ValueList where
  | nil : ValueList
  | cons : Value → ValueList → ValueList

/-- Canonical model of `HashMap<String, Value>`: key-sorted association list. -/
inductive MemberList where
  | nil : MemberList
  | cons : CoreString → Value → MemberList → MemberList
end

def ValueList.append : ValueList → ValueList → ValueList
  | .nil, ys => ys
  | .cons x xs, ys => .cons x (xs.append ys)

def ValueList.length : ValueList → Nat
  | .nil => 0
  | .cons _ vs => vs.length + 1

def MemberList.length : MemberList → Nat
  | .nil => 0
  | .cons _ _ ms => ms.length + 1

def ValueList.replicate : Nat → Value → ValueList
  | 0, _ => .nil
  | n + 1, v => .cons v (ValueList.replicate n v)

/-- Lexicographic order on char lists (by code point), the canonical key
order of the member-map model. -/
def keyLt : List Char → List Char → CoreBool
  | _, [] => false
  | [], _ :: _ => true
  | c :: cs, d :: ds =>
    if c.toNat < d.toNat then true
    else if d.toNat < c.toNat then false
    else keyLt cs ds

def strLt (a b : CoreString) : CoreBool := keyLt a.data b.data

/-- `HashMap::insert` for the key-sorted member map: the key's binding is
replaced if present, inserted at its ordered position otherwise. -/
def hmInsert (key : CoreString) (val : Value) : MemberList → MemberList
  | .nil => .cons key val .nil
  | .cons k v ms =>
    if strLt key k then .cons key val (.cons k v ms)
    else if key = k then .cons key val ms
    else .cons k v (hmInsert key val ms)

def hmLookup : MemberList → CoreString → Option Value
  | .nil, _ => none
  | .cons k v ms, key => if k = key then some v else hmLookup ms key

/-- `collect::<HashMap<_, _>>()` over an iterator of pairs: successive inserts
in iteration order (later duplicates overwrite earlier ones). -/
def hmFromList (l : List (CoreString × Value)) : MemberList :=
  l.foldl (fun m kv => hmInsert kv.1 kv.2 m) .nil

/-- `HashMap` with integer keys (`libraries`, `classes`, `values` tables):
association list with `insert` replacing the binding of an existing key. -/
def mapInsert {α : Type} (key : Int) (val : α) : List (Int × α) → List (Int × α)
  | [] => [(key, val)]
  | (k, v) :: rest =>
    if k = key then (key, val) :: rest else (k, v) :: mapInsert key val rest

def mapLookup {α : Type} : List (Int × α) → Int → Option α
  | [], _ => none
  | (k, v) :: rest, key => if k = key then some v else mapLookup rest key

end Nrbf

namespace Nrbf

/-- `RecordType` (src/lib.rs): the 20 known record kinds. -/
inductive RecordType where
  | SerializationHeader | ClassWithId | SystemClassWithMembers | ClassWithMembers
  | SystemClassWithMembersAndTypes | ClassWithMembersAndTypes | BinaryObjectString
  | BinaryArray | MemberPrimitiveTyped | MemberReference | ObjectNull | MessageEnd
  | BinaryLibrary | ObjectNullMultiple256 | ObjectNullMultiple | ArraySinglePrimitive
  | ArraySingleObject | ArraySingleString | MethodCall | MethodReturn

/-- The `FromPrimitive` numeric mapping of `RecordType` (discriminants 0-17,
21, 22); any other byte has no variant (`from_stream` panics on `none`). -/
def recordTypeFromU8 : Nat → Option RecordType
  | 0 => some .SerializationHeader
  | 1 => some .ClassWithId
  | 2 => some .SystemClassWithMembers
  | 3 => some .ClassWithMembers
  | 4 => some .SystemClassWithMembersAndTypes
  | 5 => some .ClassWithMembersAndTypes
  | 6 => some .BinaryObjectString
  | 7 => some .BinaryArray
  | 8 => some .MemberPrimitiveTyped
  | 9 => some .MemberReference
  | 10 => some .ObjectNull
  | 11 => some .MessageEnd
  | 12 => some .BinaryLibrary
  | 13 => some .ObjectNullMultiple256
  | 14 => some .ObjectNullMultiple
  | 15 => some .ArraySinglePrimitive
  | 16 => some .ArraySingleObject
  | 17 => some .ArraySingleString
  | 21 => some .MethodCall
  | 22 => some .MethodReturn
  | _ => none

/-- `BinaryType` (src/lib.rs); `Record` is the synthetic extra variant after
`PrimitiveArray = 7`, so the derived mapping gives it discriminant 8. -/
inductive BinaryType where
  | Primitive | String | Object | SystemClass | Class | ObjectArray | StringArray
  | PrimitiveArray | Record

def binaryTypeFromU8 : Nat → Option BinaryType
  | 0 => some .Primitive
  | 1 => some .String
  | 2 => some .Object
  | 3 => some .SystemClass
  | 4 => some .Class
  | 5 => some .ObjectArray
  | 6 => some .StringArray
  | 7 => some .PrimitiveArray
  | 8 => some .Record
  | _ => none

/-- `PrimitiveType` (src/lib.rs): discriminants 1-18 with 4 unused. -/
inductive PrimitiveType where
  | Boolean | Byte | Char | Decimal | Double | Int16 | Int32 | Int64 | SByte
  | Single | TimeSpan | DateTime | UInt16 | UInt32 | UInt64 | Null | String

def primitiveTypeFromU8 : Nat → Option PrimitiveType
  | 1 => some .Boolean
  | 2 => some .Byte
  | 3 => some .Char
  | 5 => some .Decimal
  | 6 => some .Double
  | 7 => some .Int16
  | 8 => some .Int32
  | 9 => some .Int64
  | 10 => some .SByte
  | 11 => some .Single
  | 12 => some .TimeSpan
  | 13 => some .DateTime
  | 14 => some .UInt16
  | 15 => some .UInt32
  | 16 => some .UInt64
  | 17 => some .Null
  | 18 => some .String
  | _ => none

/-- `BinaryArrayType` (src/lib.rs): discriminants 0-5. -/
inductive BinaryArrayType where
  | Single | Jagged | Rectangular | SingleOffset | JaggedOffset | RectangularOffset

def binaryArrayTypeFromU8 : Nat → Option BinaryArrayType
  | 0 => some .Single
  | 1 => some .Jagged
  | 2 => some .Rectangular
  | 3 => some .SingleOffset
  | 4 => some .JaggedOffset
  | 5 => some .RectangularOffset
  | _ => none

/-- The offset test of the `BinaryArray` branch
(`array_type == SingleOffset || JaggedOffset || RectangularOffset`). -/
def BinaryArrayType.isOffset : BinaryArrayType → CoreBool
  | .SingleOffset => true
  | .JaggedOffset => true
  | .RectangularOffset => true
  | _ => false

/-- `PrimitiveType::read` (src/lib.rs): scalar read of the corresponding fixed
width; `Char`, `Decimal`, `TimeSpan` and `DateTime` panic ("Cannot
deserialize"). 16-bit values are widened to the 32-bit `Value` variants. -/
def PrimitiveType.read : PrimitiveType → List Nat → Dres (Value × List Nat)
  | .Boolean, s => (readU8 s).map fun (b, s1) => (Value.Bool (b != 0), s1)
  | .SByte, s => (readI8 s).map fun (v, s1) => (Value.I8 v, s1)
  | .Int16, s => (readI16 s).map fun (v, s1) => (Value.I32 v, s1)
  | .Int32, s => (readI32 s).map fun (v, s1) => (Value.I32 v, s1)
  | .Int64, s => (readI64 s).map fun (v, s1) => (Value.I64 v, s1)
  | .Byte, s => (readU8 s).map fun (v, s1) => (Value.U8 v, s1)
  | .UInt16, s => (readU16 s).map fun (v, s1) => (Value.U32 v, s1)
  | .UInt32, s => (readU32 s).map fun (v, s1) => (Value.U32 v, s1)
  | .UInt64, s => (readU64 s).map fun (v, s1) => (Value.U64 v, s1)
  | .Single, s => (readF32 s).map fun (v, s1) => (Value.F32 v, s1)
  | .Double, s => (readF64 s).map fun (v, s1) => (Value.F64 v, s1)
  | .Null, s => .ok (Value.Null, s)
  | .String, s => (read_lps s).map fun (v, s1) => (Value.String v, s1)
  | _, _ => .fatal

/-- `ClassTypeInfo` (src/lib.rs): name and owning library id. -/
structure ClassTypeInfo where
  name : CoreString
  library_id : Int

/-- `AdditionalInfos` (src/lib.rs). -/
inductive AdditionalInfos where
  | Nothing : AdditionalInfos
  | PrimitiveType : Nrbf.PrimitiveType → AdditionalInfos
  | ClassName : CoreString → AdditionalInfos
  | Class : ClassTypeInfo → AdditionalInfos

/-- `AdditionalInfos::from_stream`: what extra payload follows a
`BinaryType` tag. -/
def additionalInfosFromStream (bt : BinaryType) (s : List Nat) :
    Dres (AdditionalInfos × List Nat) :=
  match bt with
  | .Primitive | .PrimitiveArray =>
    (readU8 s).bind fun (b, s1) =>
    match primitiveTypeFromU8 b with
    | some pt => .ok (.PrimitiveType pt, s1)
    | none => .fatal
  | .SystemClass => (read_lps s).map fun (n, s1) => (.ClassName n, s1)
  | .Class =>
    (read_lps s).bind fun (n, s1) =>
    (readI32 s1).map fun (lib, s2) => (.Class ⟨n, lib⟩, s2)
  | _ => .ok (.Nothing, s)

/-- `ClassInfo` (src/lib.rs): object id, class name, ordered field names. -/
structure ClassInfo where
  id : Int
  name : CoreString
  field_names : List CoreString

/-- Read `n` length-prefixed strings (the member-name loop of
`ClassInfo::from_stream`). -/
def readStringsN : Nat → List Nat → Dres (List CoreString × List Nat)
  | 0, s => .ok ([], s)
  | n + 1, s =>
    (read_lps s).bind fun (hd, s1) =>
    (readStringsN n s1).map fun (tl, s2) => (hd :: tl, s2)

/-- `ClassInfo::from_stream`: id, name, member count (an i32; a non-positive
count yields an empty `0..member_count` range), then the member names. -/
def classInfoFromStream (s : List Nat) : Dres (ClassInfo × List Nat) :=
  (readI32 s).bind fun (id, s1) =>
  (read_lps s1).bind fun (name, s2) =>
  (readI32 s2).bind fun (memberCount, s3) =>
  (readStringsN memberCount.toNat s3).map fun (names, s4) =>
  (⟨id, name, names⟩, s4)

/-- `ClassField` (src/lib.rs): field name, wire-type tag, extra info. -/
structure ClassField where
  name : CoreString
  btype : BinaryType
  ainfo : AdditionalInfos

/-- `Class` (src/lib.rs): class name plus ordered fields. -/
structure Class where
  name : CoreString
  fields : List ClassField

/-- The binary-type pass of the typed class records: one `BinaryType` tag per
field. -/
def readBinaryTypes : Nat → List Nat → Dres (List BinaryType × List Nat)
  | 0, s => .ok ([], s)
  | n + 1, s =>
    (readU8 s).bind fun (b, s1) =>
    match binaryTypeFromU8 b with
    | some bt => (readBinaryTypes n s1).map fun (bts, s2) => (bt :: bts, s2)
    | none => .fatal

/-- The additional-info pass: one conditional payload per already-read
`BinaryType`. -/
def readAdditionalInfos : List BinaryType → List Nat → Dres (List AdditionalInfos × List Nat)
  | [], s => .ok ([], s)
  | bt :: bts, s =>
    (additionalInfosFromStream bt s).bind fun (ai, s1) =>
    (readAdditionalInfos bts s1).map fun (ais, s2) => (ai :: ais, s2)

/-- The zip of names, binary types and additional infos into `ClassField`s. -/
def zipFields : List CoreString → List BinaryType → List AdditionalInfos → List ClassField
  | n :: ns, bt :: bts, ai :: ais => ⟨n, bt, ai⟩ :: zipFields ns bts ais
  | _, _, _ => []

/-- `i32 as usize` (64-bit): sign-extend, then reinterpret, i.e. the value
modulo `2 ^ 64`.  Used for the `ObjectNullMultiple` count and the
`ArraySinglePrimitive` / `BinaryArray` lengths. -/
def i32CastUsize (c : Int) : Nat := (c % (2 ^ 64 : Int)).toNat

/-- The `(0..rank).map(|_| read_i32(stream) as usize)` loops of the
`BinaryArray` branch (lengths and offset lower bounds). -/
def readUsizesN : Nat → List Nat → Dres (List Nat × List Nat)
  | 0, s => .ok ([], s)
  | n + 1, s =>
    (readI32 s).bind fun (v, s1) =>
    (readUsizesN n s1).map fun (vs, s2) => (i32CastUsize v :: vs, s2)

/-- `DecoderState` (src/lib.rs): the mutable decode session. -/
structure DecoderState where
  stream : List Nat
  root_id : Option Int := none
  header_id : Option Int := none
  libraries : List (Int × CoreString) := []
  classes : List (Int × Class) := []
  values : List (Int × Value) := []
  null_count : Nat := 0

/-- `DecoderState::new`. -/
def initState (s : List Nat) : DecoderState := { stream := s }

/-- `DecoderState::parse_class_member`, parametrized by the recursive-record
reader `next` (which `nextValueRecord` instantiates with itself at the current
fuel).  Primitive fields read the scalar directly from the stream; every other
supported pairing recurses into the next record; anything else panics
("No parser for ... implemented"). -/
def parseClassMemberGo (next : DecoderState → Dres (Value × DecoderState))
    (cf : ClassField) (st : DecoderState) : Dres ((CoreString × Value) × DecoderState) :=
  match cf.btype, cf.ainfo with
  | .Record, .Nothing => (next st).map fun (v, st1) => ((cf.name, v), st1)
  | .Primitive, .PrimitiveType pt =>
    (pt.read st.stream).map fun (v, s1) => ((cf.name, v), { st with stream := s1 })
  | .String, .Nothing => (next st).map fun (v, st1) => ((cf.name, v), st1)
  | .SystemClass, .ClassName _ => (next st).map fun (v, st1) => ((cf.name, v), st1)
  | .Class, .Class _ => (next st).map fun (v, st1) => ((cf.name, v), st1)
  | .PrimitiveArray, .PrimitiveType _ => (next st).map fun (v, st1) => ((cf.name, v), st1)
  | _, _ => .fatal

/-- The `fields.iter().map(parse_class_member)` loop of `parse_object`,
collecting (name, value) pairs in schema order. -/
def parseMembersGo (next : DecoderState → Dres (Value × DecoderState)) :
    List ClassField → DecoderState → Dres (List (CoreString × Value) × DecoderState)
  | [], st => .ok ([], st)
  | cf :: rest, st =>
    (parseClassMemberGo next cf st).bind fun (kv, st1) =>
    (parseMembersGo next rest st1).map fun (kvs, st2) => (kv :: kvs, st2)

/-- `DecoderState::parse_object`: look the class up (panicking when absent),
parse every field in schema order, collect into the member hash map. -/
def parseObjectGo (next : DecoderState → Dres (Value × DecoderState))
    (classId : Int) (st : DecoderState) : Dres (Value × DecoderState) :=
  match mapLookup st.classes classId with
  | none => .fatal
  | some cls =>
    (parseMembersGo next cls.fields st).map fun (kvs, st1) =>
    (Value.Object cls.name (hmFromList kvs), st1)

/-- The `(0..size).map(|_| self.next_value_record())` element loop of the
array branches. -/
def readValuesNGo (next : DecoderState → Dres (Value × DecoderState)) :
    Nat → DecoderState → Dres (ValueList × DecoderState)
  | 0, st => .ok (.nil, st)
  | n + 1, st =>
    (next st).bind fun (v, st1) =>
    (readValuesNGo next n st1).map fun (vs, st2) => (.cons v vs, st2)

/-- The `(0..length).map(|_| primitive.read(stream))` loop of
`ArraySinglePrimitive`. -/
def readPrimsN (pt : PrimitiveType) : Nat → List Nat → Dres (ValueList × List Nat)
  | 0, s => .ok (.nil, s)
  | n + 1, s =>
    (pt.read s).bind fun (v, s1) =>
    (readPrimsN pt n s1).map fun (vs, s2) => (.cons v vs, s2)

/-- `DecoderState::next_value_record` (src/lib.rs), fuel-indexed.  A pending
null run yields `Null` immediately (decrementing the counter, consuming no
bytes); otherwise one record tag is read and dispatched.  `tee` (the missing
src/debug.rs) is a debug pass-through and is modelled as the identity. -/
def nextValueRecord : Nat → DecoderState → Dres (Value × DecoderState)
  | 0, _ => .outOfFuel
  | fuel + 1, st =>
    match st.null_count with
    | n + 1 => .ok (.Null, { st with null_count := n })
    | 0 =>
      (readU8 st.stream).bind fun (tag, s0) =>
      match recordTypeFromU8 tag with
      | none => .fatal
      | some rt =>
        match rt with
        | .SerializationHeader =>
          (readI32 s0).bind fun (rootId, s1) =>
          (readI32 s1).bind fun (headerId, s2) =>
          (readI32 s2).bind fun (major, s3) =>
          if major = 1 then
            (readI32 s3).bind fun (minor, s4) =>
            if minor = 0 then
              .ok (.Bottom,
                { st with stream := s4, root_id := some rootId, header_id := some headerId })
            else .fatal
          else .fatal
        | .BinaryLibrary =>
          (readI32 s0).bind fun (id, s1) =>
          (read_lps s1).map fun (name, s2) =>
          (.Bottom, { st with stream := s2, libraries := mapInsert id name st.libraries })
        | .MessageEnd => .ok (.Bottom, { st with stream := s0 })
        | .ClassWithId =>
          (readI32 s0).bind fun (id, s1) =>
          (readI32 s1).bind fun (classId, s2) =>
          (parseObjectGo (nextValueRecord fuel) classId { st with stream := s2 }).bind
            fun (obj, st1) =>
          .ok (.Reference id, { st1 with values := mapInsert id obj st1.values })
        | .ClassWithMembers =>
          (classInfoFromStream s0).bind fun (ci, s1) =>
          (readI32 s1).bind fun (_libraryId, s2) =>
          let fields := ci.field_names.map fun n => ClassField.mk n .Record .Nothing
          let st1 :=
            { st with stream := s2, classes := mapInsert ci.id ⟨ci.name, fields⟩ st.classes }
          (parseObjectGo (nextValueRecord fuel) ci.id st1).bind fun (obj, st2) =>
          .ok (.Reference ci.id, { st2 with values := mapInsert ci.id obj st2.values })
        | .ClassWithMembersAndTypes =>
          (classInfoFromStream s0).bind fun (ci, s1) =>
          (readBinaryTypes ci.field_names.length s1).bind fun (bts, s2) =>
          (readAdditionalInfos bts s2).bind fun (ais, s3) =>
          (readI32 s3).bind fun (_libraryId, s4) =>
          let st1 :=
            { st with stream := s4,
                      classes := mapInsert ci.id ⟨ci.name, zipFields ci.field_names bts ais⟩
                        st.classes }
          (parseObjectGo (nextValueRecord fuel) ci.id st1).bind fun (obj, st2) =>
          .ok (.Reference ci.id, { st2 with values := mapInsert ci.id obj st2.values })
        | .SystemClassWithMembersAndTypes =>
          (classInfoFromStream s0).bind fun (ci, s1) =>
          (readBinaryTypes ci.field_names.length s1).bind fun (bts, s2) =>
          (readAdditionalInfos bts s2).bind fun (ais, s3) =>
          let st1 :=
            { st with stream := s3,
                      classes := mapInsert ci.id ⟨ci.name, zipFields ci.field_names bts ais⟩
                        st.classes }
          (parseObjectGo (nextValueRecord fuel) ci.id st1).bind fun (obj, st2) =>
          .ok (.Reference ci.id, { st2 with values := mapInsert ci.id obj st2.values })
        | .BinaryArray =>
          (readI32 s0).bind fun (objectId, s1) =>
          (readU8 s1).bind fun (atByte, s2) =>
          match binaryArrayTypeFromU8 atByte with
          | none => .fatal
          | some arrayType =>
            (readI32 s2).bind fun (rank, s3) =>
            (readUsizesN rank.toNat s3).bind fun (lengths, s4) =>
            (if arrayType.isOffset then readUsizesN rank.toNat s4
             else if 0 ≤ rank then .ok (List.replicate rank.toNat 0, s4)
             else .fatal).bind fun (lowerBounds, s5) =>
            (readU8 s5).bind fun (itByte, s6) =>
            match binaryTypeFromU8 itByte with
            | none => .fatal
            | some itemType =>
              (additionalInfosFromStream itemType s6).bind fun (_ai, s7) =>
              let size := lengths.foldl (fun x y => x * y % 2 ^ 64) 1
              (readValuesNGo (nextValueRecord fuel) size { st with stream := s7 }).bind
                fun (vals, st1) =>
              .ok (.Reference objectId,
                { st1 with
                    values := mapInsert objectId (.Array lengths lowerBounds vals) st1.values })
        | .ArraySinglePrimitive =>
          (readI32 s0).bind fun (objectId, s1) =>
          (readI32 s1).bind fun (lengthI, s2) =>
          let length := i32CastUsize lengthI
          (readU8 s2).bind fun (ptByte, s3) =>
          match primitiveTypeFromU8 ptByte with
          | none => .fatal
          | some pt =>
            (readPrimsN pt length s3).bind fun (vals, s4) =>
            .ok (.Reference objectId,
              { st with stream := s4,
                        values := mapInsert objectId (.Array [length] [0] vals) st.values })
        | .BinaryObjectString =>
          (readI32 s0).bind fun (id, s1) =>
          (read_lps s1).map fun (v, s2) =>
          (.Reference id, { st with stream := s2, values := mapInsert id (.String v) st.values })
        | .ObjectNull => .ok (.Null, { st with stream := s0 })
        | .ObjectNullMultiple256 =>
          -- assert_eq!(null_count, 0) holds: this branch runs under null_count = 0.
          (readU8 s0).bind fun (b, s1) =>
          nextValueRecord fuel { st with stream := s1, null_count := b }
        | .ObjectNullMultiple =>
          -- assert_eq!(null_count, 0) holds: this branch runs under null_count = 0.
          (readI32 s0).bind fun (c, s1) =>
          nextValueRecord fuel { st with stream := s1, null_count := i32CastUsize c }
        | .MemberReference =>
          (readI32 s0).map fun (id, s1) => (.Reference id, { st with stream := s1 })
        | _ => .fatal

/-- `n` successive `next_value_record` calls at a fixed fuel: the observable
value sequence of a decode session. -/
def readValues (fuel n : Nat) (st : DecoderState) : Dres (ValueList × DecoderState) :=
  readValuesNGo (nextValueRecord fuel) n st

/-- Member loop of `resolve_references` on an `Object` node. -/
def resolveMembersGo (res : Value → DecoderState → Dres (Value × DecoderState)) :
    MemberList → DecoderState → Dres (MemberList × DecoderState)
  | .nil, st => .ok (.nil, st)
  | .cons k v ms, st =>
    (res v st).bind fun (v1, st1) =>
    (resolveMembersGo res ms st1).map fun (ms1, st2) => (.cons k v1 ms1, st2)

/-- Element loop of `resolve_references` on an `Array` node. -/
def resolveListGo (res : Value → DecoderState → Dres (Value × DecoderState)) :
    ValueList → DecoderState → Dres (ValueList × DecoderState)
  | .nil, st => .ok (.nil, st)
  | .cons v vs, st =>
    (res v st).bind fun (v1, st1) =>
    (resolveListGo res vs st1).map fun (vs1, st2) => (.cons v1 vs1, st2)

/-- `DecoderState::resolve_references` (src/lib.rs), fuel-indexed: `Object`
and `Array` resolve member-by-member / element-by-element; a `Reference` is
looked up in the values table, pulling one more record from the stream and
retrying while absent; every other variant passes through unchanged. -/
def resolveReferences : Nat → Value → DecoderState → Dres (Value × DecoderState)
  | 0, _, _ => .outOfFuel
  | fuel + 1, v, st =>
    match v with
    | .Object c ms =>
      (resolveMembersGo (resolveReferences fuel) ms st).map fun (ms1, st1) =>
      (.Object c ms1, st1)
    | .Array a b vs =>
      (resolveListGo (resolveReferences fuel) vs st).map fun (vs1, st1) =>
      (.Array a b vs1, st1)
    | .Reference id =>
      match mapLookup st.values id with
      | some v1 => resolveReferences fuel v1 st
      | none =>
        (nextValueRecord fuel st).bind fun (_, st1) =>
        resolveReferences fuel (.Reference id) st1
    | other => .ok (other, st)

/-- The `while decoder.root_id.is_none()` loop of `parse_nrbf`. -/
def headerLoop : Nat → DecoderState → Dres DecoderState
  | 0, _ => .outOfFuel
  | fuel + 1, st =>
    match st.root_id with
    | some _ => .ok st
    | none =>
      (nextValueRecord fuel st).bind fun (_, st1) =>
      headerLoop fuel st1

/-- The tail of `parse_nrbf`: read one more record and
`assert_eq!(end, Value::Bottom)` — succeed only when it produced `Bottom`. -/
def finishParse (fuel : Nat) (root : Value) (st : DecoderState) : Dres Value :=
  (nextValueRecord fuel st).bind fun (endVal, _) =>
  match endVal with
  | .Bottom => .ok root
  | _ => .fatal

/-- `parse_nrbf` (src/lib.rs): loop until the header delivers the root id,
resolve the root reference, then check the end-of-message record. -/
def parse_nrbf (fuel : Nat) (stream : List Nat) : Dres Value :=
  (headerLoop fuel (initState stream)).bind fun st =>
  match st.root_id with
  | none => .fatal
  | some rootId =>
    (resolveReferences fuel (.Reference rootId) st).bind fun (root, st1) =>
    finishParse fuel root st1

end Nrbf

namespace Nrbf

mutual
/-- Does a value tree contain a `Reference` node (at the root included)? -/
def hasRef : Value → CoreBool
  | .Reference _ => true
  | .Object _ ms => hasRefMembers ms
  | .Array _ _ vs => hasRefList vs
  | _ => false

def hasRefList : ValueList → CoreBool
  | .nil => false
  | .cons v vs => hasRef v || hasRefList vs

def hasRefMembers : MemberList → CoreBool
  | .nil => false
  | .cons _ v ms => hasRef v || hasRefMembers ms
end

mutual
/-- Does a value tree contain a `Bottom` node (at the root included)? -/
def hasBottom : Value → CoreBool
  | .Bottom => true
  | .Object _ ms => hasBottomMembers ms
  | .Array _ _ vs => hasBottomList vs
  | _ => false

def hasBottomList : ValueList → CoreBool
  | .nil => false
  | .cons v vs => hasBottom v || hasBottomList vs

def hasBottomMembers : MemberList → CoreBool
  | .nil => false
  | .cons _ v ms => hasBottom v || hasBottomMembers ms
end

/-- The `{:>1$}` padding of `fmt_indent`: `n` spaces. -/
def spaces (n : Nat) : CoreString := String.mk (List.replicate n ' ')

/-- Abstract stand-in for Rust's float `Display`: decimal formatting of IEEE
floats is outside the shallow embedding, and no theorem depends on it. -/
def floatRepr (bits : Nat) : CoreString := "float:" ++ toString bits

mutual
/-- `fmt_indent` (src/value.rs).  Note the source's `"uf32"` suffix typo for
`F32` is preserved.  Object members print in the member map's own iteration
order (key order in this canonical model; arbitrary for Rust's `HashMap`). -/
def fmtIndent : Value → Nat → CoreString
  | .Null, _ => "Null"
  | .Byte v, _ => toString v ++ "u8"
  | .Bool v, _ => toString v
  | .U8 v, _ => toString v ++ "u8"
  | .U32 v, _ => toString v ++ "u32"
  | .U64 v, _ => toString v ++ "u64"
  | .I8 v, _ => toString v ++ "i8"
  | .I32 v, _ => toString v ++ "i32"
  | .I64 v, _ => toString v ++ "i64"
  | .F32 v, _ => floatRepr v ++ "uf32"
  | .F64 v, _ => floatRepr v ++ "f64"
  | .String v, _ => v
  | .Array _ _ vs, indent => "[\n" ++ fmtElems vs indent ++ spaces indent ++ "]"
  | .Object className ms, indent =>
    className ++ " \x7b\n" ++ fmtMembers ms indent ++ spaces indent ++ "\x7d"
  | .Reference v, _ => "#" ++ toString v
  | .Bottom, _ => "ERROR"

def fmtElems : ValueList → Nat → CoreString
  | .nil, _ => ""
  | .cons v vs, indent =>
    spaces (indent + 2) ++ fmtIndent v (indent + 2) ++ ",\n" ++ fmtElems vs indent

def fmtMembers : MemberList → Nat → CoreString
  | .nil, _ => ""
  | .cons member v ms, indent =>
    spaces (indent + 2) ++ member ++ ": " ++ fmtIndent v (indent + 2) ++ ",\n" ++
      fmtMembers ms indent
end

/-- `Display for Value`: `fmt_indent(self, f, 0)`. -/
def display (v : Value) : CoreString := fmtIndent v 0

/-- UTF-8 byte width of one char (1, 2, 3 or 4). -/
def charUtf8Size (c : Char) : Nat :=
  if c.toNat < 128 then 1
  else if c.toNat < 2048 then 2
  else if c.toNat < 65536 then 3
  else 4

/-- `String::len` in bytes. -/
def strByteLen (s : CoreString) : Nat :=
  (s.data.map charUtf8Size).sum

/-- Rust byte slicing `&s[..n]` on the char list of a string: `some` prefix
when `n` lands on a character boundary, `none` (a panic) otherwise. -/
def takeBytes : List Char → Nat → Option (List Char)
  | _, 0 => some []
  | [], _ + 1 => none
  | c :: cs, n + 1 =>
    if charUtf8Size c ≤ n + 1 then
      (takeBytes cs (n + 1 - charUtf8Size c)).map fun t => c :: t
    else none

/-- `expected_got` (src/value.rs): the mismatch message built from the
expected kind and `&got[..100.min(got.len())]` — a byte slice, which panics
(`none`) when byte 100 is not a character boundary. -/
def expected_got (expected got : CoreString) : Option CoreString :=
  (takeBytes got.data (min 100 (strByteLen got))).map fun t =>
    "Expected " ++ expected ++ "; Got " ++ String.mk t

/-- `TryFrom<&Value> for bool` (src/value.rs): `Ok` on the matching variant,
otherwise the `expected_got` mismatch error; `none` is the byte-slice panic
inside the error formatting. -/
def tryFromBool (v : Value) : Option (Except CoreString CoreBool) :=
  match v with
  | .Bool b => some (.ok b)
  | _ => (expected_got "Bool" (display v)).map .error

/-- `TryFrom<&Value> for i32`, same shape as the other projections. -/
def tryFromI32 (v : Value) : Option (Except CoreString Int) :=
  match v with
  | .I32 n => some (.ok n)
  | _ => (expected_got "I32" (display v)).map .error

/-- Little-endian i32 serialization (two's complement), the test-harness
inverse of `read_i32`, used to build concrete and symbolic streams. -/
def i32ToBytes (n : Int) : List Nat :=
  let u := (n % (2 ^ 32 : Int)).toNat
  [u % 256, u / 256 % 256, u / 2 ^ 16 % 256, u / 2 ^ 24 % 256]

/-- Modelled from the spec: the 7-bit-group variable-length encoder.  The
production code has no encoder; the spec's variable-length law ("encode-then-
decode ... returns the original value; the test harness must include an
encoder") fixes it as successive low-7-bit groups, least significant first,
with the high bit set on every byte except the last. -/
def encodeVarLen (n : Nat) : List Nat :=
  if h : n < 128 then [n]
  else (n % 128 + 128) :: encodeVarLen (n / 128)
decreasing_by exact Nat.div_lt_self (by omega) (by omega)

end Nrbf

namespace Nrbf

@[simp]
theorem Dres.bind_ok {α β : Type} (a : α) (f : α → Dres β) : (Dres.ok a).bind f = f a := rfl

@[simp]
theorem Dres.bind_fatal {α β : Type} (f : α → Dres β) : (Dres.fatal : Dres α).bind f = .fatal :=
  rfl

@[simp]
theorem Dres.bind_outOfFuel {α β : Type} (f : α → Dres β) :
    (Dres.outOfFuel : Dres α).bind f = .outOfFuel := rfl

@[simp]
theorem Dres.map_ok {α β : Type} (f : α → β) (a : α) : (Dres.ok a).map f = .ok (f a) := rfl

@[simp]
theorem Dres.map_fatal {α β : Type} (f : α → β) : (Dres.fatal : Dres α).map f = .fatal := rfl

@[simp]
theorem Dres.map_outOfFuel {α β : Type} (f : α → β) :
    (Dres.outOfFuel : Dres α).map f = .outOfFuel := rfl

theorem Dres.map_map {α β γ : Type} (f : α → β) (g : β → γ) (x : Dres α) :
    (x.map f).map g = x.map (fun a => g (f a)) := by cases x <;> rfl

theorem Dres.bind_assoc {α β γ : Type} (x : Dres α) (f : α → Dres β) (g : β → Dres γ) :
    (x.bind f).bind g = x.bind fun a => (f a).bind g := by cases x <;> rfl

theorem Dres.map_bind {α β γ : Type} (x : Dres α) (f : α → β) (g : β → Dres γ) :
    (x.map f).bind g = x.bind fun a => g (f a) := by cases x <;> rfl

theorem Dres.bind_map {α β γ : Type} (x : Dres α) (f : α → Dres β) (g : β → γ) :
    (x.bind f).map g = x.bind fun a => (f a).map g := by cases x <;> rfl

theorem Dres.bind_congr {α β : Type} {x : Dres α} {f g : α → Dres β}
    (h : ∀ a, f a = g a) : x.bind f = x.bind g := by cases x <;> simp [Dres.bind, h]

theorem Dres.map_id {α : Type} (x : Dres α) : x.map (fun a => a) = x := by cases x <;> rfl

theorem Dres.map_congr {α β : Type} {x : Dres α} {f g : α → β}
    (h : ∀ a, f a = g a) : x.map f = x.map g := by cases x <;> simp [Dres.map, h]

/-- `read_i32` on an explicit 4-byte prefix. -/
theorem readI32_cons (b0 b1 b2 b3 : Nat) (rest : List Nat) :
    readI32 (b0 :: b1 :: b2 :: b3 :: rest) =
      .ok (toSigned 32 (leVal [b0 % 256, b1 % 256, b2 % 256, b3 % 256]), rest) := rfl

/-- `read_i32` undoes the little-endian i32 serialization on the i32 range. -/
theorem readI32_i32ToBytes (n : Int) (rest : List Nat)
    (h1 : -(2 ^ 31) ≤ n) (h2 : n < 2 ^ 31) :
    readI32 (i32ToBytes n ++ rest) = .ok (n, rest) := by
  simp only [i32ToBytes, List.cons_append, List.nil_append, readI32_cons, Dres.ok.injEq,
    Prod.mk.injEq, and_true]
  have hval : (n % (2 ^ 32 : Int)) = n + (if n < 0 then 2 ^ 32 else 0) := by
    split <;> omega
  have hcast : (((n % (2 ^ 32 : Int))).toNat : Int) = n % (2 ^ 32 : Int) := by omega
  have hlt : ((n % (2 ^ 32 : Int))).toNat < 2 ^ 32 := by omega
  generalize hu : ((n % (2 ^ 32 : Int))).toNat = u at *
  simp only [leVal, List.foldr, toSigned]
  have hrec : u % 256 % 256 + 256 * (u / 256 % 256 % 256 +
      256 * (u / 2 ^ 16 % 256 % 256 + 256 * (u / 2 ^ 24 % 256 % 256 + 0))) = u := by
    omega
  rw [hrec]
  split <;> rename_i hsplit <;> split at hval <;> omega

/-- Canonical 7-bit-group encodings of values below `2 ^ (7 * (k + 1))` use
at most `k + 1` bytes. -/
theorem encodeVarLen_length_le :
    ∀ (k n : Nat), n < 2 ^ (7 * (k + 1)) → (encodeVarLen n).length ≤ k + 1 := by
  intro k
  induction k with
  | zero =>
    intro n hn
    have hn128 : n < 128 := by norm_num at hn; omega
    rw [encodeVarLen, dif_pos hn128]
    simp
  | succ k ih =>
    intro n hn
    rw [encodeVarLen]
    split
    · simp
    · rename_i h
      simp only [List.length_cons]
      have hpow : (2 : Nat) ^ (7 * (k + 1 + 1)) = 2 ^ (7 * (k + 1)) * 128 := by
        rw [show 7 * (k + 1 + 1) = 7 * (k + 1) + 7 by ring, pow_add]
        norm_num
      rw [hpow] at hn
      have hdiv : n / 128 < 2 ^ (7 * (k + 1)) := by omega
      exact Nat.succ_le_succ (ih (n / 128) hdiv)

/-- Decoding a canonical encoding placed at byte index `i`: as long as every
consumed index stays below 10 (so every shift amount `7 * i` stays below the
64-bit width and the release-mode mask never fires) and the accumulated value
fits in the usize width, the groups compose additively at 7-bit offsets. -/
theorem readVarAux_encode :
    ∀ (n i acc : Nat) (S : List Nat), i + (encodeVarLen n).length ≤ 10 →
      acc + n * 2 ^ (7 * i) < 2 ^ 64 →
      readVarAux (encodeVarLen n ++ S) i acc = .ok (acc + n * 2 ^ (7 * i), S) := by
  intro n
  induction n using Nat.strong_induction_on with
  | _ n ih =>
    intro i acc S hlen hfit
    by_cases h : n < 128
    · rw [encodeVarLen, dif_pos h] at hlen ⊢
      simp only [List.length_cons, List.length_nil] at hlen
      simp only [List.cons_append, List.nil_append, readVarAux]
      have hi : 7 * i % 64 = 7 * i := Nat.mod_eq_of_lt (by omega)
      rw [hi, if_pos (show n % 256 < 128 by omega)]
      have hn' : n % 256 % 128 = n := by omega
      rw [hn', Nat.mod_eq_of_lt hfit]
      rfl
    · rw [encodeVarLen, dif_neg h] at hlen ⊢
      simp only [List.length_cons] at hlen
      simp only [List.cons_append, readVarAux]
      rw [if_neg (show ¬ (n % 128 + 128) % 256 < 128 by omega)]
      have hi : 7 * i % 64 = 7 * i := Nat.mod_eq_of_lt (by omega)
      rw [hi]
      have hb : (n % 128 + 128) % 256 % 128 = n % 128 := by omega
      rw [hb]
      have hle : n % 128 * 2 ^ (7 * i) ≤ n * 2 ^ (7 * i) :=
        Nat.mul_le_mul_right _ (Nat.mod_le n 128)
      have hacc1 : (acc + n % 128 * 2 ^ (7 * i)) % 2 ^ 64 = acc + n % 128 * 2 ^ (7 * i) :=
        Nat.mod_eq_of_lt (by omega)
      rw [hacc1]
      have hpow : (2 : Nat) ^ (7 * (i + 1)) = 2 ^ (7 * i) * 128 := by
        rw [show 7 * (i + 1) = 7 * i + 7 by ring, pow_add]
        norm_num
      have hkey : acc + n % 128 * 2 ^ (7 * i) + n / 128 * 2 ^ (7 * (i + 1)) =
          acc + n * 2 ^ (7 * i) := by
        have hsplit : n % 128 + 128 * (n / 128) = n := Nat.mod_add_div n 128
        calc acc + n % 128 * 2 ^ (7 * i) + n / 128 * 2 ^ (7 * (i + 1))
            = acc + (n % 128 + 128 * (n / 128)) * 2 ^ (7 * i) := by rw [hpow]; ring
          _ = acc + n * 2 ^ (7 * i) := by rw [hsplit]
      have hstep := ih (n / 128) (Nat.div_lt_self (by omega) (by norm_num)) (i + 1)
        (acc + n % 128 * 2 ^ (7 * i)) S (by omega) (by rw [hkey]; exact hfit)
      simp only [List.append_eq]
      rw [hstep, hkey]

/-- C5 (amended): decoding the 7-bit-group encoding of any representable `n`
(below the usize width `2 ^ 64`; such canonical encodings are at most 10
bytes, so every bit offset `7 * i` stays below 64) returns `n`; decoding
stops at the first byte whose high (continuation) bit is clear; and a
continuation byte composes additively at a 7-bit offset with the following
groups while the composed value stays inside the accumulator width.  (Beyond
the 10th byte the offset-`7 * i` law breaks: Rust's shift overflows there —
see the counterexample.) -/
theorem varlen_roundtrip_and_composition :
    (∀ n S, n < 2 ^ 64 → read_variable_length (encodeVarLen n ++ S) = .ok (n, S)) ∧
    (∀ b S, b < 128 → read_variable_length (b :: S) = .ok (b, S)) ∧
    (∀ b n S, 128 ≤ b → b < 256 → n < 2 ^ 57 →
      read_variable_length (b :: (encodeVarLen n ++ S)) = .ok (b - 128 + 128 * n, S)) := by
  refine ⟨fun n S hn => ?_, fun b S hb => ?_, fun b n S hb1 hb2 hn => ?_⟩
  · have hlen : (encodeVarLen n).length ≤ 10 := by
      have h9 := encodeVarLen_length_le 9 n (lt_trans hn (by norm_num))
      omega
    have h := readVarAux_encode n 0 0 S (by omega) (by simpa using hn)
    simp only [read_variable_length]
    rw [h]
    norm_num
  · simp only [read_variable_length, readVarAux, Nat.mul_zero, Nat.zero_mod, Nat.pow_zero,
      Nat.mul_one, Nat.zero_add]
    rw [if_pos (show b % 256 < 128 by omega)]
    simp only [Dres.ok.injEq, Prod.mk.injEq]
    exact ⟨by omega, trivial⟩
  · simp only [read_variable_length, readVarAux, Nat.mul_zero, Nat.zero_mod, Nat.pow_zero,
      Nat.mul_one, Nat.zero_add]
    rw [if_neg (show ¬ b % 256 < 128 by omega)]
    have hlen : (encodeVarLen n).length ≤ 9 := by
      have h8 := encodeVarLen_length_le 8 n (lt_trans hn (by norm_num))
      omega
    have hb128 : b % 256 % 128 % 2 ^ 64 = b - 128 := by omega
    rw [hb128]
    have hfit : (b - 128) + n * 2 ^ (7 * 1) < 2 ^ 64 := by
      rw [show (2 : Nat) ^ (7 * 1) = 128 by norm_num]
      omega
    have h := readVarAux_encode n 1 (b - 128) S (by omega) hfit
    rw [h, show (2 : Nat) ^ (7 * 1) = 128 by norm_num, Nat.mul_comm n 128]

/-- Witness for the C5 theorem at the concrete inputs 300, 5 and the
continuation byte 200 before the encoding of 300. -/
theorem varlen_roundtrip_witness :
    read_variable_length (encodeVarLen 300 ++ [9]) = .ok (300, [9]) ∧
    read_variable_length (5 :: [77]) = .ok (5, [77]) ∧
    read_variable_length (200 :: (encodeVarLen 300 ++ [9])) =
      .ok (200 - 128 + 128 * 300, [9]) :=
  ⟨varlen_roundtrip_and_composition.1 300 [9] (by norm_num),
   varlen_roundtrip_and_composition.2.1 5 [77] (by norm_num),
   varlen_roundtrip_and_composition.2.2 200 300 [9] (by norm_num) (by norm_num) (by norm_num)⟩

/-- Modelled from the spec: the per-byte contribution law of the
variable-length reader exactly as the spec words it — byte `i` contributes
its low 7 bits to the accumulated value at bit offset `7 * i` (byte 0 → bits
0-6, byte 1 → bits 7-13, …), the high bit is a continuation flag, and
decoding stops at the first byte whose high bit is clear — with the
accumulated value living in the 64-bit usize.  This reference decoder is what
the source decoder is compared against. -/
def specVarLenFrom : List Nat → Nat → Option (Nat × List Nat)
  | [], _ => none
  | b :: rest, i =>
    let byte := b % 256
    if byte < 128 then some (byte % 128 * 2 ^ (7 * i) % 2 ^ 64, rest)
    else
      match specVarLenFrom rest (i + 1) with
      | some (v, r) => some ((byte % 128 * 2 ^ (7 * i) + v) % 2 ^ 64, r)
      | none => none

/-- C5 (counterexample): an 11-byte varint whose final byte sits at index 10.
Its contribution offset under the claim's law is `7 * 10 = 70`, past the
64-bit accumulator, so the spec-side value is 0; but the decoder's
release-mode shift masks the amount to `70 mod 64 = 6` and yields 64 (and a
debug build panics on the shift overflow), so the i-th byte does NOT
contribute at bit offset `7 * i` once `7 * i` reaches the usize width. -/
theorem varlen_offset_overflow :
    read_variable_length (List.replicate 10 128 ++ [1]) = .ok (64, []) ∧
    specVarLenFrom (List.replicate 10 128 ++ [1]) 0 = some (0, []) ∧
    ((64 : Nat) = 0 → False) :=
  ⟨rfl, rfl, by omega⟩

/-- C8 (code bug): a mismatching typed projection is meant to return a
recoverable error whose message names the expected kind and carries the
rendering of the value truncated to at most 100 characters.  It does for
renderings whose first 100 bytes end at a character boundary (second
conjunct), but the truncation is the byte slice `&got[..100]`, which panics
(`none`) when byte 100 falls inside a multi-byte character — here a `String`
value of 34 three-byte euro signs (102 bytes, boundaries at multiples of 3). -/
theorem projection_truncation_panics :
    tryFromBool (.String (String.mk (List.replicate 34 (Char.ofNat 8364)))) = none ∧
    tryFromBool (.String "x") = some (.error "Expected Bool; Got x") :=
  ⟨rfl, rfl⟩

/-- C4 (amended): after resolving the root, `parse_nrbf` reads one more
record and succeeds exactly when that record produced `Bottom`; any trailing
record that does not produce `Bottom` aborts the decode fatally.  (`Bottom`
is produced by `MessageEnd`, but also by `SerializationHeader` and
`BinaryLibrary`, so success does not single out the end-of-message record.) -/
theorem finish_requires_bottom :
    (∀ fuel root st v st', nextValueRecord fuel st = .ok (v, st') → v ≠ .Bottom →
      finishParse fuel root st = .fatal) ∧
    (∀ fuel root st st', nextValueRecord fuel st = .ok (.Bottom, st') →
      finishParse fuel root st = .ok root) := by
  constructor
  · intro fuel root st v st' h hne
    simp only [finishParse, h, Dres.bind_ok]
  · intro fuel root st st' h
    simp only [finishParse, h, Dres.bind_ok]

/-- Witness for the C4 theorem: a trailing `ObjectNull` record (producing
`Null`) aborts; a trailing `MessageEnd` record (producing `Bottom`) succeeds. -/
theorem finish_requires_bottom_witness :
    finishParse 1 Value.Null (initState [10]) = .fatal ∧
    finishParse 1 Value.Null (initState [11]) = .ok Value.Null :=
  ⟨finish_requires_bottom.1 1 Value.Null (initState [10]) Value.Null
      { stream := [] } rfl (fun h => Value.noConfusion h),
   finish_requires_bottom.2 1 Value.Null (initState [11]) { stream := [] } rfl⟩

/-- C4 (counterexample): a stream whose trailing record is `BinaryLibrary`
(tag 12), not the end-of-message record, still decodes successfully, because
`BinaryLibrary` also produces `Bottom` at the end check. -/
theorem trailing_library_accepted :
    parse_nrbf 12
      ([0, 1, 0, 0, 0, 0, 0, 0, 0, 1, 0, 0, 0, 0, 0, 0, 0] ++
       [6, 1, 0, 0, 0, 1, 97] ++ [12, 2, 0, 0, 0, 1, 76]) = .ok (.String "a") ∧
    recordTypeFromU8 12 = some .BinaryLibrary ∧
    (RecordType.BinaryLibrary = RecordType.MessageEnd → False) :=
  ⟨rfl, rfl, fun h => RecordType.noConfusion h⟩

theorem resolveMembersGo_noRef (res : Value → DecoderState → Dres (Value × DecoderState))
    (hres : ∀ v st r, res v st = .ok r → hasRef r.1 = false) :
    ∀ ms st r, resolveMembersGo res ms st = .ok r → hasRefMembers r.1 = false := by
  suffices haux : ∀ (n : Nat) ms st r, MemberList.length ms ≤ n →
      resolveMembersGo res ms st = .ok r → hasRefMembers r.1 = false by
    intro ms st r h
    exact haux ms.length ms st r le_rfl h
  intro n
  induction n with
  | zero =>
    intro ms st r hlen h
    cases ms with
    | nil =>
      simp only [resolveMembersGo, Dres.ok.injEq] at h
      subst h
      rfl
    | cons k v ms => simp only [MemberList.length] at hlen; omega
  | succ n ih =>
    intro ms st r hlen h
    cases ms with
    | nil =>
      simp only [resolveMembersGo, Dres.ok.injEq] at h
      subst h
      rfl
    | cons k v ms =>
      simp only [MemberList.length] at hlen
      simp only [resolveMembersGo] at h
      cases hv : res v st with
    | ok p =>
      rw [hv] at h
      simp only [Dres.bind_ok] at h
      cases hm : resolveMembersGo res ms p.2 with
      | ok q =>
        rw [hm] at h
        simp only [Dres.map_ok, Dres.ok.injEq] at h
        rw [← h]
        simp only [hasRefMembers]
        rw [hres v st p hv, ih ms p.2 q (by omega) hm]
        rfl
      | fatal => rw [hm] at h; exact Dres.noConfusion h
      | outOfFuel => rw [hm] at h; exact Dres.noConfusion h
    | fatal => rw [hv] at h; exact Dres.noConfusion h
    | outOfFuel => rw [hv] at h; exact Dres.noConfusion h

theorem resolveListGo_noRef (res : Value → DecoderState → Dres (Value × DecoderState))
    (hres : ∀ v st r, res v st = .ok r → hasRef r.1 = false) :
    ∀ vs st r, resolveListGo res vs st = .ok r → hasRefList r.1 = false := by
  suffices haux : ∀ (n : Nat) vs st r, ValueList.length vs ≤ n →
      resolveListGo res vs st = .ok r → hasRefList r.1 = false by
    intro vs st r h
    exact haux vs.length vs st r le_rfl h
  intro n
  induction n with
  | zero =>
    intro vs st r hlen h
    cases vs with
    | nil =>
      simp only [resolveListGo, Dres.ok.injEq] at h
      subst h
      rfl
    | cons v vs => simp only [ValueList.length] at hlen; omega
  | succ n ih =>
    intro vs st r hlen h
    cases vs with
    | nil =>
      simp only [resolveListGo, Dres.ok.injEq] at h
      subst h
      rfl
    | cons v vs =>
      simp only [ValueList.length] at hlen
      simp only [resolveListGo] at h
      cases hv : res v st with
    | ok p =>
      rw [hv] at h
      simp only [Dres.bind_ok] at h
      cases hm : resolveListGo res vs p.2 with
      | ok q =>
        rw [hm] at h
        simp only [Dres.map_ok, Dres.ok.injEq] at h
        rw [← h]
        simp only [hasRefList]
        rw [hres v st p hv, ih vs p.2 q (by omega) hm]
        rfl
      | fatal => rw [hm] at h; exact Dres.noConfusion h
      | outOfFuel => rw [hm] at h; exact Dres.noConfusion h
    | fatal => rw [hv] at h; exact Dres.noConfusion h
    | outOfFuel => rw [hv] at h; exact Dres.noConfusion h

/-- C1 (amended): whenever `resolve_references` returns, the returned tree
contains no `Reference` node — every reference was replaced by its
materialized value.  (`Bottom` nodes, by contrast, can survive: see the
counterexample.) -/
theorem resolveReferences_noRef :
    ∀ fuel v st v' st', resolveReferences fuel v st = .ok (v', st') → hasRef v' = false := by
  intro fuel
  induction fuel with
  | zero => intro v st v' st' h; exact Dres.noConfusion h
  | succ fuel ih =>
    have ihp : ∀ v st (r : Value × DecoderState),
        resolveReferences fuel v st = .ok r → hasRef r.1 = false :=
      fun v st r h => ih v st r.1 r.2 h
    intro v st v' st' h
    cases v with
    | Object c ms =>
      simp only [resolveReferences] at h
      cases hm : resolveMembersGo (resolveReferences fuel) ms st with
      | ok q =>
        rw [hm] at h
        simp only [Dres.map_ok, Dres.ok.injEq, Prod.mk.injEq] at h
        rw [← h.1]
        simp only [hasRef]
        exact resolveMembersGo_noRef _ ihp ms st q hm
      | fatal => rw [hm] at h; exact Dres.noConfusion h
      | outOfFuel => rw [hm] at h; exact Dres.noConfusion h
    | Array a b vs =>
      simp only [resolveReferences] at h
      cases hm : resolveListGo (resolveReferences fuel) vs st with
      | ok q =>
        rw [hm] at h
        simp only [Dres.map_ok, Dres.ok.injEq, Prod.mk.injEq] at h
        rw [← h.1]
        simp only [hasRef]
        exact resolveListGo_noRef _ ihp vs st q hm
      | fatal => rw [hm] at h; exact Dres.noConfusion h
      | outOfFuel => rw [hm] at h; exact Dres.noConfusion h
    | Reference id =>
      simp only [resolveReferences] at h
      cases hl : mapLookup st.values id with
      | some v1 =>
        rw [hl] at h
        exact ih v1 st v' st' h
      | none =>
        rw [hl] at h
        cases hn : nextValueRecord fuel st with
        | ok p =>
          rw [hn] at h
          simp only [Dres.bind_ok] at h
          exact ih (.Reference id) p.2 v' st' h
        | fatal => rw [hn] at h; exact Dres.noConfusion h
        | outOfFuel => rw [hn] at h; exact Dres.noConfusion h
    | Null => simp only [resolveReferences, Dres.ok.injEq, Prod.mk.injEq] at h; rw [← h.1]; rfl
    | Byte n => simp only [resolveReferences, Dres.ok.injEq, Prod.mk.injEq] at h; rw [← h.1]; rfl
    | Bool b => simp only [resolveReferences, Dres.ok.injEq, Prod.mk.injEq] at h; rw [← h.1]; rfl
    | U8 n => simp only [resolveReferences, Dres.ok.injEq, Prod.mk.injEq] at h; rw [← h.1]; rfl
    | U32 n => simp only [resolveReferences, Dres.ok.injEq, Prod.mk.injEq] at h; rw [← h.1]; rfl
    | U64 n => simp only [resolveReferences, Dres.ok.injEq, Prod.mk.injEq] at h; rw [← h.1]; rfl
    | I8 n => simp only [resolveReferences, Dres.ok.injEq, Prod.mk.injEq] at h; rw [← h.1]; rfl
    | I32 n => simp only [resolveReferences, Dres.ok.injEq, Prod.mk.injEq] at h; rw [← h.1]; rfl
    | I64 n => simp only [resolveReferences, Dres.ok.injEq, Prod.mk.injEq] at h; rw [← h.1]; rfl
    | F32 n => simp only [resolveReferences, Dres.ok.injEq, Prod.mk.injEq] at h; rw [← h.1]; rfl
    | F64 n => simp only [resolveReferences, Dres.ok.injEq, Prod.mk.injEq] at h; rw [← h.1]; rfl
    | String s => simp only [resolveReferences, Dres.ok.injEq, Prod.mk.injEq] at h; rw [← h.1]; rfl
    | Bottom => simp only [resolveReferences, Dres.ok.injEq, Prod.mk.injEq] at h; rw [← h.1]; rfl

/-- Witness for the C1 theorem: resolving a reference to a stored `Null`
succeeds and the result indeed contains no reference. -/
theorem resolveReferences_noRef_witness : hasRef Value.Null = false :=
  resolveReferences_noRef 2 (.Reference 1) { stream := [], values := [(1, .Null)] }
    .Null { stream := [], values := [(1, .Null)] } rfl

/-- C1 (counterexample): a decode on which `parse_nrbf` succeeds whose fully
resolved root still contains a `Bottom` node below the root — the stream
places a `BinaryLibrary` control record (which produces `Bottom`) in the
value position of the single field of class `C`. -/
theorem resolved_tree_keeps_bottom :
    parse_nrbf 12
      ([0, 1, 0, 0, 0, 0, 0, 0, 0, 1, 0, 0, 0, 0, 0, 0, 0] ++
       [3, 1, 0, 0, 0, 1, 67, 1, 0, 0, 0, 1, 102, 0, 0, 0, 0] ++
       [12, 2, 0, 0, 0, 1, 76] ++ [11]) =
      .ok (.Object "C" (.cons "f" .Bottom .nil)) ∧
    hasBottom (.Object "C" (.cons "f" .Bottom .nil)) = true :=
  ⟨rfl, rfl⟩

@[simp]
theorem readU8_cons (b : Nat) (rest : List Nat) : readU8 (b :: rest) = .ok (b % 256, rest) :=
  rfl

@[simp]
theorem classes_set_stream (st : DecoderState) (s : List Nat) :
    ({ st with stream := s } : DecoderState).classes = st.classes := rfl

@[simp]
theorem values_set_stream (st : DecoderState) (s : List Nat) :
    ({ st with stream := s } : DecoderState).values = st.values := rfl

@[simp]
theorem null_count_set_stream (st : DecoderState) (s : List Nat) :
    ({ st with stream := s } : DecoderState).null_count = st.null_count := rfl

@[simp]
theorem stream_set_stream (st : DecoderState) (s : List Nat) :
    ({ st with stream := s } : DecoderState).stream = s := rfl

theorem recordTypeFromU8_zero : recordTypeFromU8 0 = some .SerializationHeader := rfl

theorem recordTypeFromU8_one : recordTypeFromU8 1 = some .ClassWithId := rfl

/-- C6: each of the following aborts the whole decode fatally (no partial or
`Null` result): a record tag byte outside the `RecordType` enumeration; a
`ClassWithId` record whose class id is not in the classes table; a
`SerializationHeader` whose major version is not 1 or whose minor version is
not 0. -/
theorem fatal_error_conditions :
    (∀ fuel (st : DecoderState) t rest, st.null_count = 0 → st.stream = t :: rest →
      t < 256 → recordTypeFromU8 t = none →
      nextValueRecord (fuel + 1) st = .fatal) ∧
    (∀ fuel (st : DecoderState) id cid rest, st.null_count = 0 →
      st.stream = 1 :: (i32ToBytes id ++ (i32ToBytes cid ++ rest)) →
      -(2 ^ 31) ≤ id → id < 2 ^ 31 → -(2 ^ 31) ≤ cid → cid < 2 ^ 31 →
      mapLookup st.classes cid = none →
      nextValueRecord (fuel + 1) st = .fatal) ∧
    (∀ fuel (st : DecoderState) r h maj mi rest, st.null_count = 0 →
      st.stream = 0 :: (i32ToBytes r ++ (i32ToBytes h ++ (i32ToBytes maj ++
        (i32ToBytes mi ++ rest)))) →
      -(2 ^ 31) ≤ r → r < 2 ^ 31 → -(2 ^ 31) ≤ h → h < 2 ^ 31 →
      -(2 ^ 31) ≤ maj → maj < 2 ^ 31 → -(2 ^ 31) ≤ mi → mi < 2 ^ 31 →
      (maj ≠ 1 ∨ mi ≠ 0) →
      nextValueRecord (fuel + 1) st = .fatal) := by
  refine ⟨?_, ?_, ?_⟩
  · intro fuel st t rest hnc hs ht htag
    simp only [nextValueRecord, hnc, hs, readU8_cons, Dres.bind_ok]
    rw [Nat.mod_eq_of_lt ht, htag]
  · intro fuel st id cid rest hnc hs h1 h2 h3 h4 hlook
    simp only [nextValueRecord, hnc, hs, readU8_cons, Dres.bind_ok]
    rw [Nat.mod_eq_of_lt (show (1 : Nat) < 256 by norm_num), recordTypeFromU8_one]
    simp only [readI32_i32ToBytes id _ h1 h2, Dres.bind_ok]
    simp only [readI32_i32ToBytes cid _ h3 h4, Dres.bind_ok]
    simp only [parseObjectGo, classes_set_stream, hlook, Dres.bind_fatal]
  · intro fuel st r h maj mi rest hnc hs hr1 hr2 hh1 hh2 hm1 hm2 hmi1 hmi2 hbad
    simp only [nextValueRecord, hnc, hs, readU8_cons, Dres.bind_ok]
    rw [Nat.mod_eq_of_lt (show (0 : Nat) < 256 by norm_num), recordTypeFromU8_zero]
    simp only [readI32_i32ToBytes r _ hr1 hr2, Dres.bind_ok]
    simp only [readI32_i32ToBytes h _ hh1 hh2, Dres.bind_ok]
    simp only [readI32_i32ToBytes maj _ hm1 hm2, Dres.bind_ok]
    by_cases hm : maj = 1
    · rcases hbad with hbad | hbad
      · exact absurd hm hbad
      · rw [if_pos hm]
        simp only [readI32_i32ToBytes mi _ hmi1 hmi2, Dres.bind_ok]
        rw [if_neg hbad]
    · rw [if_neg hm]

/-- Witness for the C6 theorem: tag byte 20 is unknown; `ClassWithId`
referring to class id 9 in a fresh session; a header with major version 2. -/
theorem fatal_error_conditions_witness :
    nextValueRecord 1 (initState [20]) = .fatal ∧
    nextValueRecord 1 (initState (1 :: (i32ToBytes 4 ++ (i32ToBytes 9 ++ [])))) = .fatal ∧
    nextValueRecord 1 (initState (0 :: (i32ToBytes 1 ++ (i32ToBytes 0 ++ (i32ToBytes 2 ++
      (i32ToBytes 0 ++ [])))))) = .fatal :=
  ⟨fatal_error_conditions.1 0 (initState [20]) 20 [] rfl rfl (by norm_num) rfl,
   fatal_error_conditions.2.1 0 _ 4 9 [] rfl rfl (by norm_num) (by norm_num) (by norm_num)
     (by norm_num) rfl,
   fatal_error_conditions.2.2 0 _ 1 0 2 0 [] rfl rfl (by norm_num) (by norm_num) (by norm_num)
     (by norm_num) (by norm_num) (by norm_num) (by norm_num) (by norm_num)
     (Or.inl (by norm_num))⟩

theorem recordTypeFromU8_seven : recordTypeFromU8 7 = some .BinaryArray := rfl

theorem recordTypeFromU8_ten : recordTypeFromU8 10 = some .ObjectNull := rfl

theorem recordTypeFromU8_thirteen : recordTypeFromU8 13 = some .ObjectNullMultiple256 := rfl

theorem recordTypeFromU8_fourteen : recordTypeFromU8 14 = some .ObjectNullMultiple := rfl

theorem recordTypeFromU8_fifteen : recordTypeFromU8 15 = some .ArraySinglePrimitive := rfl

theorem primitiveTypeFromU8_eight : primitiveTypeFromU8 8 = some .Int32 := rfl

theorem binaryTypeFromU8_two : binaryTypeFromU8 2 = some .Object := rfl

theorem binaryArrayTypeFromU8_zero : binaryArrayTypeFromU8 0 = some .Single := rfl

@[simp]
theorem null_count_set_stream_nc (st : DecoderState) (s : List Nat) (n : Nat) :
    ({ st with stream := s, null_count := n } : DecoderState).null_count = n := rfl

/-- A pending null run yields `Null` immediately, decrementing the counter
and consuming no stream bytes. -/
theorem nextValueRecord_pending (fuel : Nat) (st : DecoderState) (m : Nat)
    (h : st.null_count = m + 1) :
    nextValueRecord (fuel + 1) st = .ok (.Null, { st with null_count := m }) := by
  simp only [nextValueRecord, h]

/-- C9: a negative 32-bit count in `ObjectNullMultiple` is not rejected — the
null-run counter becomes the count widened through `i32 as usize`
(sign-extension, i.e. `c mod 2 ^ 64`), and the record still yields its first
`Null`; the same `i32CastUsize` widening drives the element loop of an
`ArraySinglePrimitive` record with a negative 32-bit length. -/
theorem negative_counts_widen :
    (∀ fuel (st : DecoderState) c rest, st.null_count = 0 →
      st.stream = 14 :: (i32ToBytes c ++ rest) → -(2 ^ 31) ≤ c → c < 0 →
      nextValueRecord (fuel + 2) st =
        .ok (.Null, { st with stream := rest, null_count := i32CastUsize c - 1 })) ∧
    (∀ c : Int, -(2 ^ 64) < c → c < 0 → (i32CastUsize c : Int) = 2 ^ 64 + c) ∧
    (∀ fuel (st : DecoderState) id c rest, st.null_count = 0 →
      st.stream = 15 :: (i32ToBytes id ++ (i32ToBytes c ++ (8 :: rest))) →
      -(2 ^ 31) ≤ id → id < 2 ^ 31 → -(2 ^ 31) ≤ c → c < 0 →
      nextValueRecord (fuel + 1) st =
        (readPrimsN .Int32 (i32CastUsize c) rest).bind fun (vals, s4) =>
          .ok (.Reference id,
            { st with stream := s4,
                      values := mapInsert id (.Array [i32CastUsize c] [0] vals) st.values })) := by
  refine ⟨?_, ?_, ?_⟩
  · intro fuel st c rest hnc hs hc1 hc2
    have hstep : nextValueRecord (fuel + 1 + 1) st =
        nextValueRecord (fuel + 1)
          { st with stream := rest, null_count := i32CastUsize c } := by
      simp only [nextValueRecord, hnc, hs, readU8_cons, Dres.bind_ok]
      rw [Nat.mod_eq_of_lt (show (14 : Nat) < 256 by norm_num), recordTypeFromU8_fourteen]
      simp only [readI32_i32ToBytes c _ hc1 (lt_trans hc2 (by norm_num)), Dres.bind_ok]
    have hpos : 1 ≤ i32CastUsize c := by
      simp only [i32CastUsize]
      omega
    rw [hstep, nextValueRecord_pending fuel _ (i32CastUsize c - 1)
      (by simp only [null_count_set_stream_nc]; omega)]
  · intro c h1 h2
    simp only [i32CastUsize]
    omega
  · intro fuel st id c rest hnc hs h1 h2 h3 h4
    simp only [nextValueRecord, hnc, hs, readU8_cons, Dres.bind_ok,
      show (15 : Nat) % 256 = 15 from rfl, recordTypeFromU8_fifteen,
      readI32_i32ToBytes id _ h1 h2,
      readI32_i32ToBytes c _ h3 (lt_trans h4 (by norm_num)),
      show (8 : Nat) % 256 = 8 from rfl, primitiveTypeFromU8_eight]

/-- Witness for the C9 theorem at count/length -1 (widened to `2 ^ 64 - 1`). -/
theorem negative_counts_widen_witness :
    nextValueRecord 2 (initState (14 :: (i32ToBytes (-1) ++ []))) =
      .ok (.Null, { initState (14 :: (i32ToBytes (-1) ++ [])) with
                      stream := [], null_count := i32CastUsize (-1) - 1 }) ∧
    (i32CastUsize (-1) : Int) = 2 ^ 64 + (-1) ∧
    nextValueRecord 1 (initState (15 :: (i32ToBytes 1 ++ (i32ToBytes (-1) ++ (8 :: []))))) =
      (readPrimsN .Int32 (i32CastUsize (-1)) []).bind fun (vals, s4) =>
        .ok (.Reference 1,
          { initState (15 :: (i32ToBytes 1 ++ (i32ToBytes (-1) ++ (8 :: [])))) with
              stream := s4, values := mapInsert 1 (.Array [i32CastUsize (-1)] [0] vals) [] }) :=
  ⟨negative_counts_widen.1 0 _ (-1) [] rfl rfl (by norm_num) (by norm_num),
   negative_counts_widen.2.1 (-1) (by norm_num) (by norm_num),
   negative_counts_widen.2.2 0 _ 1 (-1) [] rfl rfl (by norm_num) (by norm_num) (by norm_num)
     (by norm_num)⟩

/-- C10: a `BinaryArray` record of rank 0 (here `Single` shape, `Object` item
type) has element count `fold 1 (*) [] = 1`: the decoder reads exactly one
element value and stores `Array` with empty lengths, empty lower bounds and
that single element. -/
theorem binaryArray_rank_zero :
    ∀ fuel (st : DecoderState) id S v st', st.null_count = 0 →
      -(2 ^ 31) ≤ id → id < 2 ^ 31 →
      st.stream = 7 :: (i32ToBytes id ++ (0 :: (i32ToBytes 0 ++ (2 :: S)))) →
      nextValueRecord fuel { st with stream := S } = .ok (v, st') →
      nextValueRecord (fuel + 1) st =
        .ok (.Reference id,
          { st' with values := mapInsert id (.Array [] [] (.cons v .nil)) st'.values }) := by
  intro fuel st id S v st' hnc h1 h2 hs helem
  rw [hnc] at helem
  simp +decide only [nextValueRecord, hnc, hs, readU8_cons, Dres.bind_ok,
    show (7 : Nat) % 256 = 7 from rfl, recordTypeFromU8_seven,
    readI32_i32ToBytes id _ h1 h2,
    show (0 : Nat) % 256 = 0 from rfl, binaryArrayTypeFromU8_zero,
    readI32_i32ToBytes 0 [] (by norm_num) (by norm_num),
    readI32_i32ToBytes 0 (2 :: S) (by norm_num) (by norm_num),
    BinaryArrayType.isOffset, Int.toNat_zero, readUsizesN,
    Bool.false_eq_true, if_false, if_true, List.replicate,
    show (2 : Nat) % 256 = 2 from rfl, binaryTypeFromU8_two,
    additionalInfosFromStream, List.foldl_nil, readValuesNGo, helem, Dres.map_ok]

/-- Witness for the C10 theorem: the single element is an `ObjectNull`
record, so the stored array is `Array [] [] [Null]`. -/
theorem binaryArray_rank_zero_witness :
    nextValueRecord 2 (initState (7 :: (i32ToBytes 5 ++ (0 :: (i32ToBytes 0 ++ (2 :: [10])))))) =
      .ok (.Reference 5,
        { initState [] with
            values := mapInsert 5 (.Array [] [] (.cons .Null .nil)) [] }) := by
  have h := binaryArray_rank_zero 1
    (initState (7 :: (i32ToBytes 5 ++ (0 :: (i32ToBytes 0 ++ (2 :: [10])))))) 5 [10]
    .Null { stream := [] } rfl (by norm_num) (by norm_num) rfl rfl
  exact h

/-- An `ObjectNull` record yields `Null`, consuming only the tag byte. -/
theorem nextValueRecord_objectNull (f : Nat) (st : DecoderState) (rest : List Nat)
    (hnc : st.null_count = 0) (hs : st.stream = 10 :: rest) :
    nextValueRecord (f + 1) st = .ok (.Null, { st with stream := rest }) := by
  simp only [nextValueRecord, hnc, hs, readU8_cons, Dres.bind_ok,
    show (10 : Nat) % 256 = 10 from rfl, recordTypeFromU8_ten]

/-- The value sequence observed from a run of `next_value_record` calls,
forgetting the final session state. -/
def dresValues (r : Dres (ValueList × DecoderState)) : Dres ValueList :=
  r.map fun p => p.1

theorem readValues_succ (fuel n : Nat) (st : DecoderState) :
    readValues fuel (n + 1) st =
      (nextValueRecord fuel st).bind fun (v, st1) =>
        (readValues fuel n st1).map fun (vs, st2) => (.cons v vs, st2) := rfl

/-- Draining a pending null run: `j ≤ null_count` calls yield `j` `Null`s and
only decrement the counter. -/
theorem readValues_drain (f : Nat) :
    ∀ (j : Nat) (st : DecoderState) (c : Nat), st.null_count = c → j ≤ c →
      readValues (f + 1) j st = .ok (.replicate j .Null, { st with null_count := c - j }) := by
  intro j
  induction j with
  | zero =>
    intro st c h hj
    subst h
    rfl
  | succ j ih =>
    intro st c h hj
    obtain ⟨m, rfl⟩ : ∃ m, c = m + 1 := ⟨c - 1, by omega⟩
    rw [readValues_succ, nextValueRecord_pending f st m h]
    simp only [Dres.bind_ok]
    rw [ih { st with null_count := m } m rfl (by omega)]
    simp only [Dres.map_ok]
    have harith : m + 1 - (j + 1) = m - j := by omega
    rw [harith]
    rfl

/-- A run of `ObjectNull` records: `j` calls consume `j` tag bytes and yield
`j` `Null`s. -/
theorem readValues_nulls (f : Nat) :
    ∀ (j : Nat) (st : DecoderState) (S : List Nat),
      st.null_count = 0 → st.stream = List.replicate j 10 ++ S →
      readValues (f + 1) j st = .ok (.replicate j .Null, { st with stream := S }) := by
  intro j
  induction j with
  | zero =>
    intro st S h hs
    simp only [List.replicate, List.nil_append] at hs
    rw [readValues]
    rw [readValuesNGo]
    conv_rhs => rw [← hs]
    rfl
  | succ j ih =>
    intro st S h hs
    simp only [List.replicate, List.cons_append] at hs
    rw [readValues_succ, nextValueRecord_objectNull f st (List.replicate j 10 ++ S) h hs]
    simp only [Dres.bind_ok]
    rw [ih { st with stream := List.replicate j 10 ++ S } S (by simp only [null_count_set_stream]; exact h) rfl]
    simp only [Dres.map_ok]
    rfl

/-- Splitting a run of calls: `a + b` calls are `a` calls followed by `b`
calls from the resulting state. -/
theorem readValues_add (f : Nat) :
    ∀ (a b : Nat) (st : DecoderState),
      readValues f (a + b) st = (readValues f a st).bind fun p =>
        (readValues f b p.2).map fun q => (p.1.append q.1, q.2) := by
  intro a
  induction a with
  | zero =>
    intro b st
    rw [Nat.zero_add]
    exact (Dres.map_id _).symm
  | succ a ih =>
    intro b st
    rw [Nat.succ_add]
    simp only [readValues_succ, ih, Dres.bind_assoc, Dres.map_bind, Dres.bind_map,
      Dres.map_map, ValueList.append]

/-- If the first call of a run yields `Null` with the stream advanced past the
run record and `k - 1` pending nulls, then `k` calls yield `k` `Null`s and end
with the counter back at zero. -/
theorem readValues_run_of_first (f k : Nat) (st : DecoderState) (S : List Nat)
    (hnc : st.null_count = 0) (hk : 1 ≤ k)
    (hfirst : nextValueRecord (f + 2) st =
      .ok (.Null, { st with stream := S, null_count := k - 1 })) :
    readValues (f + 2) k st = .ok (.replicate k .Null, { st with stream := S }) := by
  obtain ⟨j, rfl⟩ : ∃ j, k = j + 1 := ⟨k - 1, by omega⟩
  rw [readValues_succ, hfirst]
  simp only [Dres.bind_ok, Nat.add_sub_cancel]
  have hdrain := readValues_drain (f + 1) j { st with stream := S, null_count := j } j rfl le_rfl
  rw [hdrain]
  simp only [Dres.map_ok, Nat.sub_self]
  have hzero : ({ st with stream := S, null_count := 0 } : DecoderState) =
      { st with stream := S } := by
    conv_lhs => rw [← hnc]
  rw [hzero]
  rfl

/-- The first call on an `ObjectNullMultiple` record with count `k ≥ 1`:
`Null` is produced, the stream has advanced past the record, and `k - 1`
nulls are pending. -/
theorem nextValueRecord_nullMultiple (f : Nat) (st : DecoderState) (k : Nat) (S : List Nat)
    (hnc : st.null_count = 0) (hs : st.stream = 14 :: (i32ToBytes (k : Int) ++ S))
    (hk1 : 1 ≤ k) (hk2 : k < 2 ^ 31) :
    nextValueRecord (f + 2) st = .ok (.Null, { st with stream := S, null_count := k - 1 }) := by
  have hstep : nextValueRecord (f + 1 + 1) st =
      nextValueRecord (f + 1) { st with stream := S, null_count := i32CastUsize (k : Int) } := by
    simp only [nextValueRecord, hnc, hs, readU8_cons, Dres.bind_ok,
      show (14 : Nat) % 256 = 14 from rfl, recordTypeFromU8_fourteen,
      readI32_i32ToBytes (k : Int) S (by omega) (by omega)]
  have hcast : i32CastUsize (k : Int) = k := by
    simp only [i32CastUsize]
    omega
  rw [hstep, hcast]
  exact nextValueRecord_pending f _ (k - 1) (by simp only [null_count_set_stream_nc]; omega)

/-- The first call on an `ObjectNullMultiple256` record with count `k ≥ 1`. -/
theorem nextValueRecord_nullMultiple256 (f : Nat) (st : DecoderState) (k : Nat) (S : List Nat)
    (hnc : st.null_count = 0) (hs : st.stream = 13 :: (k :: S))
    (hk1 : 1 ≤ k) (hk2 : k < 256) :
    nextValueRecord (f + 2) st = .ok (.Null, { st with stream := S, null_count := k - 1 }) := by
  have hstep : nextValueRecord (f + 1 + 1) st =
      nextValueRecord (f + 1) { st with stream := S, null_count := k % 256 } := by
    simp only [nextValueRecord, hnc, hs, readU8_cons, Dres.bind_ok,
      show (13 : Nat) % 256 = 13 from rfl, recordTypeFromU8_thirteen]
  rw [hstep, Nat.mod_eq_of_lt hk2]
  exact nextValueRecord_pending f _ (k - 1) (by simp only [null_count_set_stream_nc]; omega)

/-- Observational equivalence driver: if the first call on `stA` consumes the
whole run record leaving `k - 1` pending nulls and the suffix `S`, while `stB`
carries `k` literal `ObjectNull` records before `S`, and the two states agree
apart from their streams, then every run of `n` calls yields the same value
sequence on both. -/
theorem values_eq_of_first (f k n : Nat) (stA stB : DecoderState) (S : List Nat)
    (hncA : stA.null_count = 0) (hncB : stB.null_count = 0) (hk : 1 ≤ k)
    (hfirst : nextValueRecord (f + 2) stA =
      .ok (.Null, { stA with stream := S, null_count := k - 1 }))
    (hsB : stB.stream = List.replicate k 10 ++ S)
    (hAB : ({ stA with stream := S } : DecoderState) = { stB with stream := S }) :
    dresValues (readValues (f + 2) n stA) = dresValues (readValues (f + 2) n stB) := by
  rcases le_or_lt n k with hn | hn
  · cases n with
    | zero => rfl
    | succ m =>
      rw [readValues_succ, hfirst]
      simp only [Dres.bind_ok]
      rw [readValues_drain (f + 1) m { stA with stream := S, null_count := k - 1 } (k - 1)
        rfl (by omega)]
      have hsplit : List.replicate k 10 = List.replicate (m + 1) 10 ++
          List.replicate (k - (m + 1)) 10 := by
        rw [← List.replicate_add]
        congr 1
        omega
      have hsB2 : stB.stream = List.replicate (m + 1) 10 ++
          (List.replicate (k - (m + 1)) 10 ++ S) := by
        rw [hsB, hsplit, List.append_assoc]
      rw [readValues_nulls (f + 1) (m + 1) stB _ hncB hsB2]
      simp only [dresValues, Dres.map_ok]
      rfl
  · rw [show n = k + (n - k) from by omega]
    rw [readValues_add (f + 2) k (n - k) stA, readValues_add (f + 2) k (n - k) stB]
    rw [readValues_run_of_first f k stA S hncA hk hfirst]
    rw [readValues_nulls (f + 1) k stB S hncB hsB]
    rw [hAB]

/-- C3: a null-run record declaring count `k` (32-bit `ObjectNullMultiple`,
conjunct 1, or 8-bit `ObjectNullMultiple256`, conjunct 2) is observationally
equivalent to `k` consecutive `ObjectNull` records followed by the same
suffix: any number of successive `next_value_record` calls yields the same
value sequence.  A declared count of 0 makes the run record behave exactly
like the bare suffix (conjuncts 3 and 4; the extra fuel unit only pays for
the recursive call the record itself performs).  While the pending counter is
nonzero, `next_value_record` synthesizes `Null` without consuming any stream
bytes (conjunct 5), so a run record's tag — and its `assert_eq!(null_count,
0)` — is only ever processed with the counter at zero. -/
theorem null_run_law :
    (∀ (f k n : Nat) S (st : DecoderState), st.null_count = 0 → 1 ≤ k → k < 2 ^ 31 →
      dresValues (readValues (f + 2) n
        { st with stream := 14 :: (i32ToBytes (k : Int) ++ S) }) =
      dresValues (readValues (f + 2) n { st with stream := List.replicate k 10 ++ S })) ∧
    (∀ (f k n : Nat) S (st : DecoderState), st.null_count = 0 → 1 ≤ k → k < 256 →
      dresValues (readValues (f + 2) n { st with stream := 13 :: (k :: S) }) =
      dresValues (readValues (f + 2) n { st with stream := List.replicate k 10 ++ S })) ∧
    (∀ f S (st : DecoderState), st.null_count = 0 →
      nextValueRecord (f + 1) { st with stream := 14 :: (i32ToBytes 0 ++ S) } =
      nextValueRecord f { st with stream := S }) ∧
    (∀ f S (st : DecoderState), st.null_count = 0 →
      nextValueRecord (f + 1) { st with stream := 13 :: (0 :: S) } =
      nextValueRecord f { st with stream := S }) ∧
    (∀ f (st : DecoderState) m, st.null_count = m + 1 →
      nextValueRecord (f + 1) st = .ok (.Null, { st with null_count := m })) := by
  refine ⟨?_, ?_, ?_, ?_, fun f st m h => nextValueRecord_pending f st m h⟩
  · intro f k n S st hnc hk1 hk2
    exact values_eq_of_first f k n _ _ S hnc hnc hk1
      (nextValueRecord_nullMultiple f _ k S hnc rfl hk1 hk2) rfl rfl
  · intro f k n S st hnc hk1 hk2
    exact values_eq_of_first f k n _ _ S hnc hnc hk1
      (nextValueRecord_nullMultiple256 f _ k S hnc rfl hk1 hk2) rfl rfl
  · intro f S st hnc
    simp only [nextValueRecord, null_count_set_stream, hnc, stream_set_stream, readU8_cons,
      Dres.bind_ok, show (14 : Nat) % 256 = 14 from rfl, recordTypeFromU8_fourteen,
      readI32_i32ToBytes 0 S (by norm_num) (by norm_num),
      show i32CastUsize 0 = 0 from rfl]
  · intro f S st hnc
    simp only [nextValueRecord, null_count_set_stream, hnc, stream_set_stream, readU8_cons,
      Dres.bind_ok, show (13 : Nat) % 256 = 13 from rfl, recordTypeFromU8_thirteen,
      show (0 : Nat) % 256 = 0 from rfl]

/-- Witness for the C3 theorem: a 32-bit null run of count 1 against one
`ObjectNull`, observed for two calls over the suffix `[11]`, and one
pending-counter step. -/
theorem null_run_law_witness :
    dresValues (readValues 2 2
      { initState [] with stream := 14 :: (i32ToBytes 1 ++ [11]) }) =
      dresValues (readValues 2 2
        { initState [] with stream := List.replicate 1 10 ++ [11] }) ∧
    nextValueRecord 1 { initState [] with null_count := 3 } =
      .ok (.Null, { { initState [] with null_count := 3 } with null_count := 2 }) :=
  ⟨null_run_law.1 0 1 2 [11] (initState []) rfl (by norm_num) (by norm_num),
   null_run_law.2.2.2.2 0 { initState [] with null_count := 3 } 2 rfl⟩

/-- The values-table binding of `id` after a run of records, `none` unless
the run succeeded. -/
def lookupAfter (r : Dres (ValueList × DecoderState)) (id : Int) : Option Value :=
  match r with
  | .ok (_, st) => mapLookup st.values id
  | _ => none

/-- `mapLookup` after `mapInsert` of the same key finds the inserted value. -/
theorem mapLookup_mapInsert_self {α : Type} :
    ∀ (m : List (Int × α)) (k : Int) (v : α), mapLookup (mapInsert k v m) k = some v := by
  intro m
  induction m with
  | nil => intro k v; simp [mapInsert, mapLookup]
  | cons hd tl ih =>
    intro k v
    obtain ⟨k', v'⟩ := hd
    simp only [mapInsert]
    split
    · simp [mapLookup]
    · rename_i hne
      simp only [mapLookup]
      rw [if_neg hne]
      exact ih k v

/-- Every key of `mapInsert k v m` is `k` or a key of `m`. -/
theorem mem_keys_mapInsert {α : Type} (k : Int) (v : α) :
    ∀ (m : List (Int × α)) (x : Int), x ∈ (mapInsert k v m).map Prod.fst →
      x = k ∨ x ∈ m.map Prod.fst := by
  intro m
  induction m with
  | nil =>
    intro x hx
    simp only [mapInsert, List.map_cons, List.map_nil, List.mem_singleton] at hx
    exact Or.inl hx
  | cons hd tl ih =>
    intro x hx
    obtain ⟨k', v'⟩ := hd
    simp only [mapInsert] at hx
    split at hx
    · rename_i heq
      simp only [List.map_cons, List.mem_cons] at hx
      rcases hx with hx | hx
      · exact Or.inl hx
      · exact Or.inr (by simp only [List.map_cons, List.mem_cons]; exact Or.inr hx)
    · simp only [List.map_cons, List.mem_cons] at hx
      rcases hx with hx | hx
      · exact Or.inr (by simp only [List.map_cons, List.mem_cons]; exact Or.inl hx)
      · rcases ih x hx with hx2 | hx2
        · exact Or.inl hx2
        · exact Or.inr (by simp only [List.map_cons, List.mem_cons]; exact Or.inr hx2)

/-- `mapInsert` keeps the keys of the table duplicate-free. -/
theorem nodup_keys_mapInsert {α : Type} (k : Int) (v : α) :
    ∀ (m : List (Int × α)), (m.map Prod.fst).Nodup →
      ((mapInsert k v m).map Prod.fst).Nodup := by
  intro m
  induction m with
  | nil => intro _; simp [mapInsert]
  | cons hd tl ih =>
    intro h
    obtain ⟨k', v'⟩ := hd
    simp only [List.map_cons, List.nodup_cons] at h
    simp only [mapInsert]
    split
    · rename_i heq
      subst heq
      simp only [List.map_cons, List.nodup_cons]
      exact h
    · rename_i hne
      simp only [List.map_cons, List.nodup_cons]
      refine ⟨fun hmem => ?_, ih h.2⟩
      rcases mem_keys_mapInsert k v tl k' hmem with h2 | h2
      · exact hne h2
      · exact h.1 h2

/-- C2 (amended): the session's `values` table holds at most one binding per
object id (`mapInsert` preserves duplicate-free keys), and when two records
declare the same id the LATER record's value overwrites the earlier one —
`HashMap::insert` is last-write-wins, so a repeated insert of the same key
leaves the second value. -/
theorem values_table_last_write_wins :
    (∀ (m : List (Int × Value)) (k : Int) (v1 v2 : Value),
      mapLookup (mapInsert k v2 (mapInsert k v1 m)) k = some v2) ∧
    (∀ (m : List (Int × Value)) (k : Int) (v : Value),
      (m.map Prod.fst).Nodup → ((mapInsert k v m).map Prod.fst).Nodup) :=
  ⟨fun m k v1 v2 => mapLookup_mapInsert_self (mapInsert k v1 m) k v2,
   fun m k v h => nodup_keys_mapInsert k v m h⟩

/-- Witness for the C2 theorem at a concrete table. -/
theorem values_table_last_write_wins_witness :
    mapLookup (mapInsert 1 (Value.String "b") (mapInsert 1 (Value.String "a") [])) 1 =
      some (Value.String "b") ∧
    ((mapInsert 1 Value.Null [(2, Value.Null)]).map Prod.fst).Nodup :=
  ⟨values_table_last_write_wins.1 [] 1 (Value.String "a") (Value.String "b"),
   values_table_last_write_wins.2 [(2, Value.Null)] 1 Value.Null (by simp)⟩

/-- C2 (counterexample): two `BinaryObjectString` records declaring the same
object id 1 with payloads "a" then "b": after both records the table holds
the SECOND value — the first write does not win. -/
theorem duplicate_id_keeps_last :
    lookupAfter (readValues 1 2 (initState
      ([6, 1, 0, 0, 0, 1, 97] ++ [6, 1, 0, 0, 0, 1, 98]))) 1 = some (.String "b") ∧
    (Value.String "b" = Value.String "a" → False) :=
  ⟨rfl, fun h => by injection h with h1; exact absurd h1 (by decide)⟩

/-- `hmLookup` after `hmInsert`: the inserted key is found, others are
unaffected. -/
theorem hmLookup_hmInsert :
    ∀ (m : MemberList) (k key : CoreString) (v : Value),
      hmLookup (hmInsert k v m) key = if k = key then some v else hmLookup m key := by
  suffices haux : ∀ (n : Nat) (m : MemberList) (k key : CoreString) (v : Value),
      m.length ≤ n →
      hmLookup (hmInsert k v m) key = if k = key then some v else hmLookup m key by
    intro m k key v
    exact haux m.length m k key v le_rfl
  intro n
  induction n with
  | zero =>
    intro m k key v hlen
    cases m with
    | nil => simp [hmInsert, hmLookup]
    | cons k' v' ms => simp only [MemberList.length] at hlen; omega
  | succ n ih =>
    intro m k key v hlen
    cases m with
    | nil => simp [hmInsert, hmLookup]
    | cons k' v' ms =>
      simp only [MemberList.length] at hlen
      simp only [hmInsert]
      split
      · simp only [hmLookup]
      · split
        · rename_i hlt heq
          subst heq
          simp only [hmLookup]
          split <;> rfl
        · rename_i hlt heq
          simp only [hmLookup]
          rw [ih ms k key v (by omega)]
          by_cases h1 : k' = key
          · subst h1
            rw [if_pos rfl, if_neg heq, if_pos rfl]
          · rw [if_neg h1]
            by_cases h2 : k = key
            · rw [if_pos h2, if_pos h2]
            · rw [if_neg h2, if_neg h2, if_neg h1]

/-- The binding a left fold of inserts leaves for `key`: the LAST binding of
`key` in the list (later inserts overwrite earlier ones). -/
def assocLast : List (CoreString × Value) → CoreString → Option Value
  | [], _ => none
  | kv :: rest, key =>
    match assocLast rest key with
    | some v => some v
    | none => if kv.1 = key then some kv.2 else none

theorem hmLookup_foldl :
    ∀ (l : List (CoreString × Value)) (m : MemberList) (key : CoreString),
      hmLookup (l.foldl (fun acc kv => hmInsert kv.1 kv.2 acc) m) key =
        match assocLast l key with
        | some v => some v
        | none => hmLookup m key := by
  intro l
  induction l with
  | nil => intro m key; rfl
  | cons kv l ih =>
    intro m key
    simp only [List.foldl_cons, assocLast]
    rw [ih]
    cases h : assocLast l key with
    | some v => simp only [h]
    | none =>
      simp only [h]
      rw [hmLookup_hmInsert]
      by_cases hk : kv.1 = key
      · simp [hk]
      · simp [hk]

/-- With duplicate-free keys, the fold's lookup is exactly list membership. -/
theorem assocLast_mem :
    ∀ (l : List (CoreString × Value)), (l.map Prod.fst).Nodup →
      ∀ key v, (assocLast l key = some v ↔ (key, v) ∈ l) := by
  intro l
  induction l with
  | nil => intro _ key v; simp [assocLast]
  | cons kv l ih =>
    intro hnd key v
    simp only [List.map_cons, List.nodup_cons] at hnd
    obtain ⟨hknot, hnd2⟩ := hnd
    simp only [assocLast, List.mem_cons]
    constructor
    · intro h
      cases hal : assocLast l key with
      | some w =>
        rw [hal] at h
        simp only at h
        injection h with h
        rw [← h]
        exact Or.inr ((ih hnd2 key w).mp hal)
      | none =>
        rw [hal] at h
        simp only at h
        split at h
        · rename_i hk
          injection h with h
          subst h
          left
          rw [← hk]
        · exact absurd h (by simp)
    · intro h
      rcases h with h | h
      · have hk1 : kv.1 = key := by rw [← h]
        have hal : assocLast l key = none := by
          cases hal : assocLast l key with
          | none => rfl
          | some w =>
            have hmem := (ih hnd2 key w).mp hal
            have hkeys : key ∈ l.map Prod.fst := List.mem_map_of_mem Prod.fst hmem
            exact absurd (hk1 ▸ hkeys) hknot
        rw [hal]
        simp only [if_pos hk1]
        rw [← h]
      · rw [(ih hnd2 key v).mpr h]

/-- C7 (amended): field lookup by name on a decoded `Object` is independent
of the declared field order — building the member map from any permutation of
the same (name, value) pairs (with duplicate-free names) yields the same
lookup for every name.  The text renderer, by contrast, displays fields in
the member map's own iteration order, which does not preserve the declared
order (see the counterexample). -/
theorem member_lookup_order_independent :
    ∀ (l1 l2 : List (CoreString × Value)), l1.Perm l2 → (l1.map Prod.fst).Nodup →
      ∀ key, hmLookup (hmFromList l1) key = hmLookup (hmFromList l2) key := by
  intro l1 l2 hp hnd key
  have hnd2 : (l2.map Prod.fst).Nodup := ((hp.map Prod.fst).nodup_iff).mp hnd
  simp only [hmFromList]
  rw [hmLookup_foldl l1 .nil key, hmLookup_foldl l2 .nil key]
  cases hal : assocLast l1 key with
  | some v =>
    have hmem : (key, v) ∈ l1 := (assocLast_mem l1 hnd key v).mp hal
    have h3 : assocLast l2 key = some v :=
      (assocLast_mem l2 hnd2 key v).mpr (hp.mem_iff.mp hmem)
    rw [h3]
  | none =>
    cases hal2 : assocLast l2 key with
    | none => rfl
    | some v =>
      have hmem : (key, v) ∈ l2 := (assocLast_mem l2 hnd2 key v).mp hal2
      have h3 : assocLast l1 key = some v :=
        (assocLast_mem l1 hnd key v).mpr (hp.mem_iff.mpr hmem)
      rw [h3] at hal
      exact absurd hal (by simp)

/-- Witness for the C7 theorem: the two orders of the fields `a`, `b` give
the same lookup at `b`. -/
theorem member_lookup_order_independent_witness :
    hmLookup (hmFromList [("a", Value.Null), ("b", Value.I32 1)]) "b" =
      hmLookup (hmFromList [("b", Value.I32 1), ("a", Value.Null)]) "b" :=
  member_lookup_order_independent [("a", Value.Null), ("b", Value.I32 1)]
    [("b", Value.I32 1), ("a", Value.Null)]
    (List.Perm.swap ("b", Value.I32 1) ("a", Value.Null) [])
    (by simp) "b"

/-- C7 (counterexample): a `ClassWithMembers` record declaring fields in the
order `b`, `a` decodes to an object whose member map iterates `a` before `b`
(the canonical hash-map model forgets insertion order, as Rust's `HashMap`
does), so the renderer does NOT display the fields in the schema's declared
order `b`, `a`. -/
theorem object_display_not_declared_order :
    lookupAfter (readValues 2 1 (initState
      ([3, 1, 0, 0, 0, 1, 67, 2, 0, 0, 0, 1, 98, 1, 97, 0, 0, 0, 0, 10, 10]))) 1 =
      some (.Object "C" (.cons "a" .Null (.cons "b" .Null .nil))) ∧
    display (.Object "C" (.cons "a" .Null (.cons "b" .Null .nil))) =
      "C \x7b\n  a: Null,\n  b: Null,\n\x7d" ∧
    ("C \x7b\n  a: Null,\n  b: Null,\n\x7d" = "C \x7b\n  b: Null,\n  a: Null,\n\x7d" →
      False) :=
  ⟨rfl, rfl, fun h => absurd h (by decide)⟩

end Nrbf
